import Mathlib

/-!
Formal model of the changelog generation and merge engine of the
`ai-context-commit-tools` package (`ChangelogGenerator` in
`src/core/changelog-generator.ts`).

Strings are modelled as `List Char` (`Str`).  Each definition follows the
TypeScript source; regular-expression operations are translated into explicit
scanning functions whose semantics follow the JavaScript regex engine
(leftmost match, ordered alternation, greedy/lazy quantifiers, `.` not
matching newlines, `$` anchoring at end of input only, global replacement
scanning the original string left to right and never rescanning emitted
output).  Comments on each definition record the regex being translated.

External effects (the git queries, the file system clock and file I/O) are
modelled as explicit parameters: the commit-range query result and the
`git rev-parse HEAD` result are passed as `Except` values, the current
timestamp is passed as a string, and the produced file write is returned as
data instead of performed.
-/

set_option maxRecDepth 8000
set_option maxHeartbeats 1600000

abbrev Str := List Char

/-- Convert a Lean string literal to the `List Char` representation. -/
def str (s : String) : Str := s.data

/-- Boolean prefix test on `Str` (JS `String.startsWith` / regex literal match
at a position). -/
def pre : Str → Str → Bool
  | [], _ => true
  | _ :: _, [] => false
  | a :: as, b :: bs => a = b && pre as bs

/-- Boolean substring test (JS `String.includes`, or an unanchored regex
literal): does `pat` occur anywhere in the second argument? -/
def containsSub (pat : Str) : Str → Bool
  | [] => pre pat []
  | c :: rest => pre pat (c :: rest) || containsSub pat rest

/-- Number of positions of `s` at which `pat` occurs (positions `0..s.length`,
occurrences may overlap).  Used to state "exactly one watermark" claims. -/
def countSubstr : Str → Str → Nat
  | [], pat => if pre pat [] then 1 else 0
  | c :: rest, pat => (if pre pat (c :: rest) then 1 else 0) + countSubstr rest pat

/-- Number of positions strictly inside `T` at which `pat` occurs in `T ++ Y`
(an occurrence may spill from `T` into the continuation `Y`). -/
def countPreExt (pat Y : Str) : Str → Nat
  | [] => 0
  | c :: T => (if pre pat (c :: (T ++ Y)) then 1 else 0) + countPreExt pat Y T

/-- JS whitespace class `\s`, restricted to its ASCII members (the unicode
space characters also matched by JS `\s` play no role in this development). -/
def isWsC (c : Char) : Bool :=
  c = ' ' || c = '\t' || c = '\n' || c = '\r' || c = '\x0b' || c = '\x0c'

/-- JS word-character class `\w` = `[A-Za-z0-9_]`. -/
def isWordC (c : Char) : Bool := c.isAlphanum || c = '_'

/-- JS `String.trim`: strip leading and trailing `\s` characters. -/
def trimWs (s : Str) : Str :=
  ((s.dropWhile isWsC).reverse.dropWhile isWsC).reverse

/-- Lower-casing a string (JS `String.toLowerCase`; the inputs in this
development are ASCII, where `Char.toLower` agrees with JS). -/
def lowerStr (s : Str) : Str := s.map Char.toLower

/-- Helper for the global replacement `replace(/\s+/g, ' ')`: each maximal
run of whitespace is replaced by a single space.  The boolean argument
records whether the scanner is inside a run whose replacement space has
already been emitted. -/
def collapseWsGo (inRun : Bool) : Str → Str
  | [] => []
  | c :: rest =>
    if isWsC c then
      if inRun then collapseWsGo true rest else ' ' :: collapseWsGo true rest
    else c :: collapseWsGo false rest

/-- JS `replace(/\s+/g, ' ')`. -/
def collapseWs (s : Str) : Str := collapseWsGo false s

/-! ## Data model (`src/types/index.ts`) -/

/-- The closed `CommitType` enumeration. -/
inductive CommitType where
  | feat | fix | docs | style | refactor | perf | test | chore | ci | build | security
deriving DecidableEq, Repr

/-- The literal text of each commit type. -/
def typeStr : CommitType → Str
  | .feat => str ("feat")
  | .fix => str ("fix")
  | .docs => str ("docs")
  | .style => str ("style")
  | .refactor => str ("refactor")
  | .perf => str ("perf")
  | .test => str ("test")
  | .chore => str ("chore")
  | .ci => str ("ci")
  | .build => str ("build")
  | .security => str ("security")

/-- The alternation order of the conventional-commit regex
`^(feat|fix|docs|style|refactor|perf|test|chore|ci|build|security)...`. -/
def commitTypeAlternation : List CommitType :=
  [.feat, .fix, .docs, .style, .refactor, .perf, .test, .chore, .ci, .build, .security]

/-- A commit record as produced by the `git log --oneline` query:
object id and first message line. -/
structure GitCommit where
  hash : Str
  message : Str
deriving DecidableEq, Repr

/-- A parsed changelog entry.  The source interface also carries optional
`author`/`date` fields which are never set by the oneline query and never
read by the changelog logic, so they are omitted here. -/
structure ChangelogEntry where
  type : CommitType
  scope : Option Str
  description : Str
  hash : Str
deriving DecidableEq, Repr

/-- A rendered changelog section: human-readable title plus its entries. -/
structure Section where
  title : Str
  entries : List ChangelogEntry
deriving DecidableEq, Repr

/-! ## Conventional commit parser (`parseConventionalCommit`, `inferCommitType`) -/

/-- Result shape of `parseConventionalCommit`. -/
structure ParsedCC where
  type : CommitType
  scope : Option Str
  description : Str
deriving DecidableEq, Repr

/-- The commit type whose literal is a prefix of the message, if any.  The
regex alternation tries the alternatives in order; since no alternative is a
prefix of another, at most one can match at the start of the message, and
`find?` returns exactly the alternative the regex engine would commit to. -/
def findTypeAlt (msg : Str) : Option CommitType :=
  commitTypeAlternation.find? (fun t => pre (typeStr t) msg)

/-- The scoped group `\(([^)]+)\)`: `r` is the text after the opening
parenthesis.  `[^)]+` is a greedy run of non-`)` characters which must be
non-empty; since the class excludes `)`, the only viable match ends at the
first `)`, so no backtracking case is lost. -/
def matchScoped (r : Str) : Option (Str × Str) :=
  match r.drop (r.takeWhile (fun c => ¬ c = ')')).length with
  | ')' :: r3 =>
    if r.takeWhile (fun c => ¬ c = ')') = [] then none
    else some (r.takeWhile (fun c => ¬ c = ')'), r3)
  | _ => none

/-- The final capture `(.+)$`: at least one character, no newline (`.` does
not match `\n` and `$` without the `m` flag only matches at the very end of
the input, so a message containing a newline after `: ` fails the regex). -/
def descOk (d : Str) : Bool := ¬ d = [] && ¬ d.elem '\n'

/-- Keyword inference used when the message is not a conventional commit
(`inferCommitType`): case-insensitive substring checks in source order. -/
def inferCommitType (message : Str) : CommitType :=
  let lower := lowerStr message
  if containsSub (str ("fix")) lower || containsSub (str ("bug")) lower
      || containsSub (str ("error")) lower then .fix
  else if containsSub (str ("test")) lower || containsSub (str ("spec")) lower then .test
  else if containsSub (str ("doc")) lower || containsSub (str ("readme")) lower then .docs
  else if containsSub (str ("refactor")) lower || containsSub (str ("cleanup")) lower then .refactor
  else if containsSub (str ("performance")) lower || containsSub (str ("optimize")) lower then .perf
  else if containsSub (str ("security")) lower
      || containsSub (str ("vulnerability")) lower then .security
  else if containsSub (str ("ci")) lower || containsSub (str ("pipeline")) lower
      || containsSub (str ("workflow")) lower then .ci
  else if containsSub (str ("dependency")) lower || containsSub (str ("deps")) lower
      || containsSub (str ("version")) lower then .chore
  else .feat

/-- The anchored regex `^(type)(?:\(([^)]+)\))?: (.+)$` as an optional
match.  When the message starts with `type(`, the empty-group backtracking
alternative would require `: ` at the `(` and necessarily fails, so failure
of the scoped variant means failure of the whole regex. -/
def parseConvCore (message : Str) : Option ParsedCC :=
  match findTypeAlt message with
  | none => none
  | some t =>
    match message.drop (typeStr t).length with
    | '(' :: r =>
      match matchScoped r with
      | some (sc, r3) =>
        match r3 with
        | ':' :: ' ' :: d => if descOk d then some ⟨t, some sc, d⟩ else none
        | _ => none
      | none => none
    | ':' :: ' ' :: d => if descOk d then some ⟨t, none, d⟩ else none
    | _ => none

/-- `parseConventionalCommit`: try the anchored regex; on failure fall back
to keyword inference with the whole message as description. -/
def parseConventionalCommit (message : Str) : ParsedCC :=
  match parseConvCore message with
  | some p => p
  | none => ⟨inferCommitType message, none, message⟩

/-! ## Worthiness filter (`isChangelogWorthy`) -/

/-- Test of `/found \d+ staged files/` at the start of `s`: the literal
`found `, a non-empty digit run, then ` staged files`.  Since a space is not
a digit, only the maximal digit run can be followed by the literal, so the
greedy `\d+` needs no backtracking. -/
def foundStagedAt (s : Str) : Bool :=
  if pre (str ("found ")) s then
    let r := s.drop 6
    let ds := r.takeWhile Char.isDigit
    ¬ ds = [] && pre (str (" staged files")) (r.drop ds.length)
  else false

/-- Unanchored test of `/found \d+ staged files/`. -/
def foundStagedAny : Str → Bool
  | [] => false
  | c :: rest => foundStagedAt (c :: rest) || foundStagedAny rest

/-- Test of `/^\w+\.\w+$/` ("bare filename"): word characters, one dot, word
characters, nothing else.  `takeWhile` finds the first dot; if the remainder
contains another dot the `all isWordC` test fails, so this is equivalent to
the regex with its backtracking. -/
def wordDotWord (s : Str) : Bool :=
  let a := s.takeWhile (fun c => ¬ c = '.')
  match s.drop a.length with
  | '.' :: b => ¬ a = [] && a.all isWordC && ¬ b = [] && b.all isWordC
  | _ => false

/-- The bare single verbs excluded by
`/^(update|fix|add|remove|change|delete|create|test|debug)$/`. -/
def meaninglessWords : List Str :=
  [str ("update"), str ("fix"), str ("add"), str ("remove"), str ("change"),
   str ("delete"), str ("create"), str ("test"), str ("debug")]

/-- `isChangelogWorthy`: deny-list of noise patterns tested against the
lower-cased, trimmed description; everything else passes. -/
def isChangelogWorthy (entry : ChangelogEntry) : Bool :=
  let d := trimWs (lowerStr entry.description)
  ¬ (pre (str ("merge ")) d
    || foundStagedAny d
    || containsSub (str ("generating ai commit message")) d
    || containsSub (str ("ai message generated")) d
    || d = str ("wip")
    || d = str ("temp")
    || d = str ("tmp")
    || wordDotWord d
    || meaninglessWords.contains d)

/-! ## Deduplication (`normalizeDescription`, `deduplicateEntries`) -/

/-- `normalizeDescription`: lower-case, collapse whitespace runs to single
spaces, trim. -/
def normalizeDescription (description : Str) : Str :=
  trimWs (collapseWs (lowerStr description))

/-- Lookup in the insertion-ordered map modelling the JS `Map` (`seen.get`). -/
def mapGet (k : Str) : List (Str × α) → Option α
  | [] => none
  | (k', v) :: rest => if k' = k then some v else mapGet k rest

/-- Update/insert in the insertion-ordered map modelling the JS `Map`
(`seen.set`): an existing key is updated in place, a new key is appended. -/
def mapSet (k : Str) (v : α) : List (Str × α) → List (Str × α)
  | [] => [(k, v)]
  | (k', v') :: rest =>
    if k' = k then (k', v) :: rest else (k', v') :: mapSet k v rest

/-- One step of the dedup loop shared by `deduplicateEntries` and
`deduplicateChangelogEntries`: first occurrence of a key is kept, and a later
entry with the same key replaces it exactly when its `size` is strictly
larger. -/
def dedupStep (key : α → Str) (size : α → Nat) (m : List (Str × α)) (e : α) :
    List (Str × α) :=
  match mapGet (key e) m with
  | none => mapSet (key e) e m
  | some old => if size old < size e then mapSet (key e) e m else m

/-- The dedup loop: fold all entries through the map, then take
`Array.from(seen.values())` (values in insertion order). -/
def dedupFold (key : α → Str) (size : α → Nat) (entries : List α) : List α :=
  (entries.foldl (dedupStep key size) []).map Prod.snd

/-- `entry.scope || ''`. -/
def scopeStr : Option Str → Str
  | none => []
  | some s => s

/-- The dedup key `${entry.type}:${entry.scope || ''}:${normalizedDesc}`. -/
def entryKey (e : ChangelogEntry) : Str :=
  typeStr e.type ++ ':' :: scopeStr e.scope ++ ':' :: normalizeDescription e.description

/-- `deduplicateEntries`: at most one entry per key, keeping the entry with
the strictly longest raw description (first one wins ties). -/
def deduplicateEntries (entries : List ChangelogEntry) : List ChangelogEntry :=
  dedupFold entryKey (fun e => e.description.length) entries

/-- `parseCommits`: parse every commit, keep the changelog-worthy ones,
deduplicate. -/
def parseCommits (commits : List GitCommit) : List ChangelogEntry :=
  let entries := commits.map (fun commit =>
    let parsed := parseConventionalCommit commit.message
    { type := parsed.type, scope := parsed.scope,
      description := parsed.description, hash := commit.hash })
  deduplicateEntries (entries.filter isChangelogWorthy)

/-! ## Grouping and rendering (`typeTitles`, `groupEntriesByType`,
`generateSectionContent`) -/

/-- The fixed mapping from commit types to section titles
(`private typeTitles: Record<CommitType, string>`). -/
def typeTitles : CommitType → Str
  | .feat => str ("Added")
  | .fix => str ("Fixed")
  | .perf => str ("Performance")
  | .security => str ("Security")
  | .refactor => str ("Changed")
  | .docs => str ("Documentation")
  | .test => str ("Testing")
  | .chore => str ("Maintenance")
  | .ci => str ("CI/CD")
  | .build => str ("Build")
  | .style => str ("Code Style")

/-- `Object.values(this.typeTitles)`: the titles in the record's declaration
order, which is the fixed section order used for rendering. -/
def sectionOrder : List Str :=
  [str ("Added"), str ("Fixed"), str ("Performance"), str ("Security"), str ("Changed"),
   str ("Documentation"), str ("Testing"), str ("Maintenance"), str ("CI/CD"),
   str ("Build"), str ("Code Style")]

/-- `groupEntriesByType`: the source accumulates a `Record<string, entry[]>`
keyed by section title (pushes preserve input order within a key) and then
walks `sectionOrder`, keeping non-empty groups; `grouped[title]` is exactly
the order-preserving filter of the input by title. -/
def groupEntriesByType (entries : List ChangelogEntry) : List Section :=
  sectionOrder.filterMap (fun title =>
    if entries.filter (fun e => typeTitles e.type = title) = [] then none
    else some ⟨title, entries.filter (fun e => typeTitles e.type = title)⟩)

/-- JS `Array.join(sep)`. -/
def joinSep (sep : Str) : List Str → Str
  | [] => []
  | [x] => x
  | x :: y :: rest => x ++ sep ++ joinSep sep (y :: rest)

/-- The leading-verb cleanup `replace(/^(add|fix|update|remove)\s+/i, '')`.
No alternative is a prefix of another, so at most one matches; the
alternative must be followed by at least one whitespace character, and the
greedy `\s+` removes the whole run. -/
def leadingVerbs : List Str := [str ("add"), str ("fix"), str ("update"), str ("remove")]

def stripLeadingVerb (s : Str) : Str :=
  match leadingVerbs.find? (fun w =>
      lowerStr (s.take w.length) = w && ¬ (s.drop w.length).takeWhile isWsC = []) with
  | some w => (s.drop w.length).dropWhile isWsC
  | none => s

/-- The recognised filename extensions, in the alternation order of
`\.(ts|js|tsx|jsx|json|yaml|yml|md|txt)`. -/
def extList : List Str :=
  [str ("ts"), str ("js"), str ("tsx"), str ("jsx"), str ("json"), str ("yaml"),
   str ("yml"), str ("md"), str ("txt")]

/-- Word-character test for an optional previous character (`\b` treats the
start of the string as a non-word position). -/
def isWordO : Option Char → Bool
  | none => false
  | some c => isWordC c

/-- Match of `\b[\w-]+\.(ext…)\b(?!\s+\w)` (case-insensitive) at the current
position, given the previous character; returns the match length.  The
class `[\w-]` excludes `.`, so the greedy run ends at the first character
outside the class and no shorter run can reach a dot; the alternation is
tried in source order, moving on when the trailing `\b` or the negative
lookahead `(?!\s+\w)` fails. -/
def matchFilenameAt (prev : Option Char) (s : Str) : Option Nat :=
  match s with
  | [] => none
  | c :: _ =>
    if isWordO prev = (isWordC c || c = '-') then none
    else
      let run := s.takeWhile (fun x => isWordC x || x = '-')
      if run = [] then none
      else
        match s.drop run.length with
        | '.' :: r2 =>
          match extList.find? (fun ext =>
              lowerStr (r2.take ext.length) = ext
              && (let afterExt := r2.drop ext.length
                  let wordAfter := match afterExt with
                    | x :: _ => isWordC x
                    | [] => false
                  let ws := afterExt.takeWhile isWsC
                  let lookBad := ¬ ws = [] && (match afterExt.drop ws.length with
                    | x :: _ => isWordC x
                    | [] => false)
                  !wordAfter && !lookBad)) with
          | some ext => some (run.length + 1 + ext.length)
          | none => none
        | _ => none

/-- The global filename-token removal
`replace(/\b[\w-]+\.(ts|…|txt)\b(?!\s+\w)/gi, '')`: left-to-right scan over
the original string, skipping each match. -/
def removeFnGo (prev : Option Char) (skip : Nat) : Str → Str
  | [] => []
  | c :: rest =>
    match skip with
    | n + 1 => removeFnGo (some c) n rest
    | 0 =>
      match matchFilenameAt prev (c :: rest) with
      | some len => removeFnGo (some c) (len - 1) rest
      | none => c :: removeFnGo (some c) 0 rest

def removeFilenameTokens (s : Str) : Str := removeFnGo none 0 s

/-- The edge-punctuation cleanup `replace(/^[,\-\s]+|[,\-\s]+$/g, '')`: the
first alternative can only match the maximal run at the start, the second
the maximal run at the end, so the global replace strips both edges. -/
def isPunctWsC (c : Char) : Bool := c = ',' || c = '-' || isWsC c

def stripEdgePunct (s : Str) : Str :=
  ((s.dropWhile isPunctWsC).reverse.dropWhile isPunctWsC).reverse

/-- `/^[A-Z]{2,}/`: at least two leading ASCII capitals (an acronym). -/
def upper2 : Str → Bool
  | a :: b :: _ => a.isUpper && b.isUpper
  | _ => false

/-- Lower-case the first character unless the description starts with an
acronym. -/
def decapFirst : Str → Str
  | [] => []
  | c :: rest => if upper2 (c :: rest) then c :: rest else c.toLower :: rest

/-- The per-entry description cleanup of `generateSectionContent`, in source
order: strip a leading verb, drop standalone filename tokens, collapse
whitespace and trim, strip edge punctuation, fix capitalisation. -/
def cleanDescription (d : Str) : Str :=
  decapFirst (stripEdgePunct (trimWs (collapseWs (removeFilenameTokens (stripLeadingVerb d)))))

/-- `entry.scope` truthiness: JS treats an empty scope string as falsy. -/
def scopeTruthy : Option Str → Bool
  | none => false
  | some s => ¬ s = []

/-- Rendering of one entry inside `generateSectionContent`: `null` (dropped)
when the cleaned description is shorter than 10 characters; scoped entries
render as `**scope**: description` without a bullet, unscoped ones as
`- description`. -/
def renderEntry (entry : ChangelogEntry) : Option Str :=
  let description := cleanDescription entry.description
  if description.length < 10 then none
  else if scopeTruthy entry.scope then
    some (str ("**") ++ scopeStr entry.scope ++ str ("**: ") ++ description)
  else some (str ("- ") ++ description)

/-- Rendering of one section: `null` (dropped) when every entry was dropped;
otherwise `### title` and the surviving entries joined by newlines. -/
def renderSection (s : Section) : Option Str :=
  let es := s.entries.filterMap renderEntry
  if es = [] then none
  else some (str ("### ") ++ s.title ++ str ("\n\n") ++ joinSep (str ("\n")) es)

/-- `generateSectionContent`: render the sections, drop the `null` ones, join
with blank lines. -/
def generateSectionContent (sections : List Section) : Str :=
  joinSep (str ("\n\n")) (sections.filterMap renderSection)

/-! ## Parsing an existing unreleased block
(`parseExistingChangelogEntries`) -/

/-- JS `String.split('\n')`. -/
def splitLines : Str → List Str
  | [] => [[]]
  | c :: rest =>
    if c = '\n' then [] :: splitLines rest
    else match splitLines rest with
      | [] => [[c]]
      | l :: ls => (c :: l) :: ls

/-- Match of the split pattern `###\s+(.+)` at the current position:
`###`, at least one whitespace character (greedy, may cross newlines), then
a non-empty newline-free capture.  When the whitespace run reaches the end
of the input, `\s+` backtracks and `(.+)` matches the run's maximal
newline-free non-empty tail, if it leaves at least one whitespace character. -/
def matchHeadingAt (s : Str) : Option (Nat × Str) :=
  if pre (str ("###")) s then
    let r := s.drop 3
    let ws := r.takeWhile isWsC
    if ws = [] then none
    else
      let t := (r.drop ws.length).takeWhile (fun c => ¬ c = '\n')
      if ¬ t = [] then some (3 + ws.length + t.length, t)
      else
        let tail := (ws.reverse.takeWhile (fun c => ¬ c = '\n')).reverse
        if tail = [] || ws.length = tail.length then none
        else some (3 + ws.length, tail)
  else none

/-- Leftmost match of `###\s+(.+)`: start index, match length, capture. -/
def findHeading : Str → Option (Nat × Nat × Str)
  | [] => none
  | c :: rest =>
    match matchHeadingAt (c :: rest) with
    | some (len, t) => some (0, len, t)
    | none =>
      match findHeading rest with
      | some (i, len, t) => some (i + 1, len, t)
      | none => none

/-- The capture/content pair list produced by
`content.split(/###\s+(.+)/)` as consumed by the `for (i = 1; i += 2)` loop:
each match contributes its capture (the section title) and the text between
the match and the next match (the section content).  The fuel is the input
length; every step drops at least the 4-character match, so it never runs
out. -/
def splitHeadingsGo : Nat → Str → List (Str × Str)
  | 0, _ => []
  | fuel + 1, s =>
    match findHeading s with
    | none => []
    | some (i, len, t) =>
      let rest := s.drop (i + len)
      let contentLen := match findHeading rest with
        | none => rest.length
        | some (j, _, _) => j
      (t, rest.take contentLen) :: splitHeadingsGo fuel rest

def splitHeadings (s : Str) : List (Str × Str) := splitHeadingsGo s.length s

/-- `parseExistingChangelogEntries`: for each captured section title
(skipped when it trims to nothing), keep the lines of its content whose
trimmed form starts with `-`, as (title, trimmed line) pairs. -/
def parseExistingChangelogEntries (content : Str) : List (Str × Str) :=
  (splitHeadings content).flatMap (fun p =>
    let sectionTitle := trimWs p.1
    if sectionTitle = [] then []
    else
      ((splitLines p.2).filter (fun l => pre (str ("-")) (trimWs l))).map
        (fun l => (sectionTitle, trimWs l)))

/-! ## Cross-run normalisation and dedup (`normalizeChangelogEntry`,
`deduplicateChangelogEntries`, `intelligentMerge`) -/

/-- `replace(/^-\s*/, '')`: strip a leading bullet and the whitespace after
it. -/
def stripBullet : Str → Str
  | '-' :: r => r.dropWhile isWsC
  | s => s

/-- Remove the first match of a pattern (a non-global `replace(re, '')`):
scan left to right, drop the first match, keep everything after unchanged. -/
def findRemoveFirst (matchAt : Str → Option Nat) : Str → Str
  | [] => []
  | c :: rest =>
    match matchAt (c :: rest) with
    | some len => (c :: rest).drop len
    | none => c :: findRemoveFirst matchAt rest

/-- Match of `\*\*[^*]+\*\*:\s*` at the current position.  `[^*]+` is a
greedy non-empty run of non-`*` characters; since the class excludes `*`,
only the maximal run can be followed by `**:`. -/
def matchScopeMarkerAt (s : Str) : Option Nat :=
  if pre (str ("**")) s then
    let r := s.drop 2
    let run := r.takeWhile (fun c => ¬ c = '*')
    if run = [] then none
    else
      let r2 := r.drop run.length
      if pre (str ("**:")) r2 then
        some (2 + run.length + 3 + ((r2.drop 3).takeWhile isWsC).length)
      else none
  else none

/-- Match of `task\s*(id|Id)?\s*:\s*` at the current position.  When the
optional group is taken but no `:` follows, the group-empty alternative
would need `:` in place of the group's first character (`i`/`I`) and fails
too, so no backtracking case is lost. -/
def matchTaskAt (s : Str) : Option Nat :=
  if pre (str ("task")) s then
    let r := s.drop 4
    let ws1 := (r.takeWhile isWsC).length
    let r2 := r.drop ws1
    let idLen : Nat := if pre (str ("id")) r2 || pre (str ("Id")) r2 then 2 else 0
    let r3 := r2.drop idLen
    let ws2 := (r3.takeWhile isWsC).length
    match r3.drop ws2 with
    | ':' :: r4 => some (4 + ws1 + idLen + ws2 + 1 + (r4.takeWhile isWsC).length)
    | _ => none
  else none

/-- Match of `dev-\d+[,\s]*` at the current position: greedy digit run, then
a greedy run of commas and whitespace. -/
def matchDevAt (s : Str) : Option Nat :=
  if pre (str ("dev-")) s then
    let r := s.drop 4
    let ds := r.takeWhile Char.isDigit
    if ds = [] then none
    else
      some (4 + ds.length
        + ((r.drop ds.length).takeWhile (fun c => c = ',' || isWsC c)).length)
  else none

/-- `normalizeChangelogEntry`: lower-case, strip the leading bullet, remove
the first scope marker, the first `task id:` prefix and the first `DEV-n`
ticket id, collapse whitespace, trim. -/
def normalizeChangelogEntry (content : Str) : Str :=
  trimWs (collapseWs
    (findRemoveFirst matchDevAt
      (findRemoveFirst matchTaskAt
        (findRemoveFirst matchScopeMarkerAt
          (stripBullet (lowerStr content))))))

/-- The cross-run dedup key `${entry.section}:${normalized}`. -/
def ceKey (p : Str × Str) : Str := p.1 ++ ':' :: normalizeChangelogEntry p.2

/-- `deduplicateChangelogEntries`: same map loop as `deduplicateEntries`,
keyed on section and normalised content, keeping the strictly longer raw
line. -/
def deduplicateChangelogEntries (entries : List (Str × Str)) : List (Str × Str) :=
  dedupFold ceKey (fun p => p.2.length) entries

/-- `intelligentMerge`: parse both bodies into (section, line) pairs,
concatenate, deduplicate, regroup in the fixed section order (the source's
`Record` grouping preserves first-occurrence order within a section), and
re-render. -/
def intelligentMerge (existingSection newSection : Str) : Str :=
  let existingEntries := parseExistingChangelogEntries existingSection
  let newEntries := parseExistingChangelogEntries newSection
  let deduplicatedEntries := deduplicateChangelogEntries (existingEntries ++ newEntries)
  joinSep (str ("\n\n")) (sectionOrder.filterMap (fun sec =>
    let contents := (deduplicatedEntries.filter (fun e => e.1 = sec)).map Prod.snd
    if contents = [] then none
    else some (str ("### ") ++ sec ++ str ("\n\n") ++ joinSep (str ("\n")) contents)))

/-! ## The document merge (`mergeWithExistingChangelog`) -/

/-- First occurrence index of `pat` in the second argument. -/
def findSub (pat : Str) : Str → Option Nat
  | [] => if pre pat [] then some 0 else none
  | c :: rest =>
    if pre pat (c :: rest) then some 0
    else match findSub pat rest with
      | some i => some (i + 1)
      | none => none

def unreleasedHeading : Str := str ("## [Unreleased]")

/-- Stop condition of the lazy group of
`/## \[Unreleased\]\s*([\s\S]*?)(?=\n## |\n<!-- Generated:|$)/`. -/
def isMergeStop (s : Str) : Bool :=
  pre (str ("\n## ")) s || pre (str ("\n<!-- Generated:")) s

/-- Number of characters the lazy group takes before the first position
where the lookahead succeeds (`$` succeeds at the end of input, so the scan
stops at the input's end at the latest). -/
def stopLenMerge : Str → Nat
  | [] => 0
  | c :: rest => if isMergeStop (c :: rest) then 0 else 1 + stopLenMerge rest

/-- The `else` path of `mergeWithExistingChangelog` ("no unreleased section
found" and "empty capture"): insert a new Unreleased block before the first
`\n## `, or append one at the end. -/
def mergeNoUnreleased (existingContent newSection : Str) : Str :=
  match findSub (str ("\n## ")) existingContent with
  | some h =>
    existingContent.take h ++ str ("\n## [Unreleased]\n\n") ++ newSection ++ str ("\n\n")
      ++ existingContent.drop h
  | none => existingContent ++ str ("\n## [Unreleased]\n\n") ++ newSection ++ str ("\n\n")

/-- `mergeWithExistingChangelog`.  The regex finds the first
`## [Unreleased]`; the greedy `\s*` takes the maximal whitespace run (the
lazy group with the `$` lookahead alternative always completes, so `\s*`
never backtracks); the lazy group then extends to the first `\n## ` /
`\n<!-- Generated:` position or the end.  `match[1]` is truthy exactly when
the capture is non-empty; `replace` substitutes the whole matched span
(heading, whitespace and capture — the lookahead is not consumed). -/
def mergeWithExistingChangelog (existingContent newSection : Str) : Str :=
  match findSub unreleasedHeading existingContent with
  | some i =>
    let j := i + unreleasedHeading.length
    let afterH := existingContent.drop j
    let wsN := (afterH.takeWhile isWsC).length
    let body := afterH.drop wsN
    let bodyLen := stopLenMerge body
    let k := j + wsN + bodyLen
    let m1 := body.take bodyLen
    if ¬ m1 = [] then
      let existingUnreleased := trimWs m1
      if ¬ existingUnreleased = []
          && ¬ containsSub (str ("<!-- Generated:")) existingUnreleased then
        existingContent.take i ++ str ("## [Unreleased]\n\n")
          ++ intelligentMerge existingUnreleased newSection ++ str ("\n\n")
          ++ existingContent.drop k
      else
        existingContent.take i ++ str ("## [Unreleased]\n\n") ++ newSection ++ str ("\n\n")
          ++ existingContent.drop k
    else mergeNoUnreleased existingContent newSection
  | none => mergeNoUnreleased existingContent newSection

/-- `createInitialChangelog`. -/
def createInitialChangelog : Str :=
  str ("# Changelog\n\nAll notable changes to this project will be documented in this file.\n\nThe format is based on [Keep a Changelog](https://keepachangelog.com/en/1.0.0/),\nand this project adheres to [Semantic Versioning](https://semver.org/spec/v2.0.0.html).\n\n## [Unreleased]\n\n")

/-! ## Watermark metadata (`addMetadata`, `removeExistingMetadata`) -/

def genMarker : Str := str ("<!-- Generated:")

def ciMarker : Str := str ("<!-- CI-LAST-PROCESSED:")

/-- Match of `<marker>.*?-->\n?` at the current position: the marker, then
the lazy `.*?` (which cannot cross a newline) up to the first `-->` on the
same line, then an optional newline. -/
def matchCommentAt (marker : Str) (s : Str) : Option Nat :=
  if pre marker s then
    let r := s.drop marker.length
    let line := r.takeWhile (fun c => ¬ c = '\n')
    match findSub (str ("-->")) line with
    | some i =>
      let len := marker.length + i + 3
      match s.drop len with
      | '\n' :: _ => some (len + 1)
      | _ => some len
    | none => none
  else none

/-- Global removal `replace(/<marker>.*?-->\n?/g, '')`: matches are located
left to right over the original string and scanning resumes after each
match, so text joined across a removed span is never rescanned — stale
watermark text can in principle survive by juxtaposition. -/
def stripCommentsGo (marker : Str) (skip : Nat) : Str → Str
  | [] => []
  | c :: rest =>
    match skip with
    | n + 1 => stripCommentsGo marker n rest
    | 0 =>
      match matchCommentAt marker (c :: rest) with
      | some len => stripCommentsGo marker (len - 1) rest
      | none => c :: stripCommentsGo marker 0 rest

def stripComments (marker : Str) (s : Str) : Str := stripCommentsGo marker 0 s

/-- Global collapse `replace(/\n{3,}/g, '\n\n')`: each maximal newline run
of length at least three becomes exactly two newlines. -/
def collapseNLGo (skip : Nat) : Str → Str
  | [] => []
  | c :: rest =>
    match skip with
    | n + 1 => collapseNLGo n rest
    | 0 =>
      if c = '\n' then
        let run := 1 + (rest.takeWhile (fun x => x = '\n')).length
        if 3 ≤ run then '\n' :: '\n' :: collapseNLGo (run - 1) rest
        else c :: collapseNLGo 0 rest
      else c :: collapseNLGo 0 rest

def collapseNL (s : Str) : Str := collapseNLGo 0 s

/-- `removeExistingMetadata`: strip every `<!-- Generated: … -->` comment,
then every `<!-- CI-LAST-PROCESSED: … -->` comment, collapse the resulting
blank-line runs, trim. -/
def removeExistingMetadata (content : Str) : Str :=
  trimWs (collapseNL (stripComments ciMarker (stripComments genMarker content)))

/-- The fresh watermark pair
`<!-- Generated: ${timestamp} Commit: ${latestCommit} -->\n<!-- CI-LAST-PROCESSED: ${latestCommit} -->`. -/
def metadataBlock (latestCommit timestamp : Str) : Str :=
  str ("<!-- Generated: ") ++ timestamp ++ str (" Commit: ") ++ latestCommit
    ++ str (" -->\n<!-- CI-LAST-PROCESSED: ") ++ latestCommit ++ str (" -->")

/-- Number of characters the lazy group of
`/(## \[Unreleased\][\s\S]*?)(\n## |$)/` takes after the heading: up to the
first `\n## ` or the end of the input. -/
def stopLenMeta : Str → Nat
  | [] => 0
  | c :: rest => if pre (str ("\n## ")) (c :: rest) then 0 else 1 + stopLenMeta rest

/-- `addMetadata`: strip stale metadata, then insert the fresh pair after
the Unreleased block.  The replacement `${match[1]}\n${metadata}\n${match[2] || ''}`
re-emits both groups around the insertion, so the result is an insertion at
the end of the lazy group; without an Unreleased heading the pair is
appended at the end.  The source reads the timestamp from the clock
(`new Date().toISOString()`); it is an explicit parameter here. -/
def addMetadata (content latestCommit timestamp : Str) : Str :=
  match findSub unreleasedHeading (removeExistingMetadata content) with
  | some i =>
    (removeExistingMetadata content).take
        (i + unreleasedHeading.length
          + stopLenMeta ((removeExistingMetadata content).drop (i + unreleasedHeading.length)))
      ++ '\n' :: metadataBlock latestCommit timestamp
      ++ '\n' :: (removeExistingMetadata content).drop
          (i + unreleasedHeading.length
            + stopLenMeta ((removeExistingMetadata content).drop (i + unreleasedHeading.length)))
  | none => removeExistingMetadata content ++ '\n' :: metadataBlock latestCommit timestamp ++ ['\n']

/-! ## Watermark extraction and commit range (`getCommitsSinceLastCI`) -/

/-- The character class `[a-f0-9]` of the watermark-extraction regex. -/
def isHexC (c : Char) : Bool :=
  ('a' ≤ c && c ≤ 'f') || ('0' ≤ c && c ≤ '9')

def extractMarker : Str := str ("<!-- CI-LAST-PROCESSED: ")

/-- Greedy backtracking of `([a-f0-9]+) -->`: the largest `k ≥ 1` not
exceeding the hex run length such that ` -->` follows after `k` characters. -/
def hexCloseSearch (r : Str) : Nat → Option Nat
  | 0 => none
  | k + 1 => if pre (str (" -->")) (r.drop (k + 1)) then some (k + 1) else hexCloseSearch r k

/-- Match of `<!-- CI-LAST-PROCESSED: ([a-f0-9]+) -->` at the current
position, returning the captured hash. -/
def matchLastProcessedAt (s : Str) : Option Str :=
  if pre extractMarker s then
    match hexCloseSearch (s.drop extractMarker.length)
        ((s.drop extractMarker.length).takeWhile isHexC).length with
    | some k => some ((s.drop extractMarker.length).take k)
    | none => none
  else none

/-- Leftmost match of the watermark-extraction regex over the document. -/
def extractLastProcessed : Str → Option Str
  | [] => none
  | c :: rest =>
    match matchLastProcessedAt (c :: rest) with
    | some h => some h
    | none => extractLastProcessed rest

/-- The commit range selected by `getCommitsSinceLastCI`. -/
inductive CommitRange where
  | sinceHash (h : Str)
  | recentFallback
deriving DecidableEq, Repr

/-- The range choice of `getCommitsSinceLastCI`: an incremental
`<hash>..HEAD` range when the watermark regex matches the changelog,
otherwise the recent-commits fallback (`HEAD~50..HEAD`, or the whole history
when the repository is shallow — the two fallback sub-modes depend on a
further git probe and are not distinguished here).  `changelog` is `none`
when the changelog file does not exist. -/
def commitRange (changelog : Option Str) : CommitRange :=
  match changelog with
  | none => .recentFallback
  | some content =>
    match extractLastProcessed content with
    | some h => .sinceHash h
    | none => .recentFallback

/-! ## The orchestrator (`generateChangelog`) -/

/-- `getLatestCommitHash`: the trimmed `git rev-parse HEAD` output, or the
literal `unknown` when the lookup throws (the catch swallows the error). -/
def getLatestCommitHash (headE : Except Str Str) : Str :=
  match headE with
  | .ok h => trimWs h
  | .error _ => str ("unknown")

/-- Outcome of one `generateChangelog` run: the value returned to the caller
(`none` models the `null` "nothing to do" result) and the content written to
the changelog file, if any. -/
structure GenResult where
  returned : Option Str
  written : Option Str
deriving DecidableEq, Repr

/-- `generateChangelog`.  The commit-range query result and the HEAD lookup
result enter as `Except` values; the existing file content is `none` when
the file does not exist (then `createInitialChangelog` bootstraps it).  A
commit-range failure is wrapped by `getCommitsSinceLastCI` as
`Failed to get commits: ${error}` and rethrown; the orchestrator's catch
wraps the rethrown `Error` (whose interpolation prefixes `Error: `) as
`Failed to generate changelog: ${error}`.  `e` stands for the interpolated
text of the underlying git exception. -/
def generateChangelog (commitsE : Except Str (List GitCommit)) (headE : Except Str Str)
    (existingFile : Option Str) (timestamp : Str) (previewMode : Bool) :
    Except Str GenResult :=
  match commitsE with
  | .error e =>
    .error (str ("Failed to generate changelog: Error: Failed to get commits: ") ++ e)
  | .ok commits =>
    if commits.length = 0 then .ok ⟨none, none⟩
    else
      let entries := parseCommits commits
      let sections := groupEntriesByType entries
      let newContent := generateSectionContent sections
      if trimWs newContent = [] then .ok ⟨none, none⟩
      else if previewMode then .ok ⟨some newContent, none⟩
      else
        let existingContent := match existingFile with
          | some c => c
          | none => createInitialChangelog
        let updatedContent := mergeWithExistingChangelog existingContent newContent
        let latestCommit := getLatestCommitHash headE
        let finalContent := addMetadata updatedContent latestCommit timestamp
        .ok ⟨some finalContent, some finalContent⟩

/-! ## Concrete documents and runs used by the claim theorems -/

/-- A fresh section as rendered by the engine. -/
def demoSection : Str := str ("### Added\n\n- brand new feature entry")

/-- A document whose Unreleased block body is exactly a stale watermark
pair, followed by a release block. -/
def watermarkOnlyDoc : Str :=
  str ("# Changelog\n\n## [Unreleased]\n\n<!-- Generated: t Commit: aaa -->\n<!-- CI-LAST-PROCESSED: aaa -->\n\n## [1.0.0] - 2024-01-01\n\n### Added\n\n- released entry\n")

/-- A document with an empty Unreleased block followed by a dated release
block. -/
def c7doc : Str :=
  str ("# Changelog\n\n## [Unreleased]\n\n## [1.0.0] - 2024-01-01\n\n### Added\n\n- old release entry here\n")

/-- One changelog-worthy conventional commit. -/
def worthyCommit : GitCommit :=
  ⟨str ("a1b2c3d"), str ("feat(api): implement rate limiting for endpoints")⟩

/-- The non-preview run over `c7doc` with one new worthy commit, both git
queries succeeding. -/
def c7run : Except Str GenResult :=
  generateChangelog (.ok [worthyCommit]) (.ok (str ("a1b2c3d")))
    (some c7doc) (str ("2024-06-01T00:00:00.000Z")) false

/-- A document in which stale watermark text is nested inside stale
watermark comments, so that stripping the inner comments re-joins the
surrounding text into fresh complete comments. -/
def c2advDoc : Str :=
  str ("<!-- Gen<!-- Generated: x -->erated: y -->\n<!-- CI-LAST<!-- CI-LAST-PROCESSED: x -->-PROCESSED: y -->")

/-- An ordinarily formed document with one complete stale watermark pair:
stripping it leaves a marker-free document. -/
def c2wDoc : Str :=
  str ("# Changelog\n\n## [Unreleased]\n\n### Added\n\n- existing entry\n\n<!-- Generated: 2024-05-01T00:00:00.000Z Commit: 0ddf00d -->\n<!-- CI-LAST-PROCESSED: 0ddf00d -->\n\n## [1.0.0] - 2024-01-01\n")

/-- An unreleased-block body holding one scoped entry line. -/
def c3scoped : Str := str ("### Added\n\n**ui**: responsive nav layout")

/-- The non-preview run with a failing HEAD lookup. -/
def c8run : Except Str GenResult :=
  generateChangelog (.ok [worthyCommit]) (.error (str ("git rev-parse failed")))
    (some createInitialChangelog) (str ("2024-06-01T00:00:00.000Z")) false

/-! ## Properties of the dedup map loop -/

/-- Invariant of the dedup fold relating the accumulated map to the entries
processed so far: stored pairs are keyed correctly, come from the processed
entries and have maximal size among same-key processed entries; every
processed entry has a stored pair with its key; stored keys are distinct. -/
def GoodMap (key : α → Str) (size : α → Nat) (seen : List α) (m : List (Str × α)) : Prop :=
  (∀ p ∈ m, key p.2 = p.1 ∧ p.2 ∈ seen ∧ ∀ x ∈ seen, key x = p.1 → size x ≤ size p.2)
  ∧ (∀ x ∈ seen, ∃ p ∈ m, p.1 = key x)
  ∧ (m.map Prod.fst).Nodup

/-- The `(type, scope, normalized-description)` key named by the
specification.  The source composes it into the string
`${type}:${scope || ''}:${normalizedDesc}` (`entryKey`); equal tuples give
equal composed strings. -/
def tupleKey (e : ChangelogEntry) : CommitType × Option Str × Str :=
  (e.type, e.scope, normalizeDescription e.description)

theorem mapGet_nil {α : Type} (k : Str) : mapGet k ([] : List (Str × α)) = none := rfl

theorem mapGet_cons {α : Type} (k k' : Str) (v : α) (m : List (Str × α)) :
    mapGet k ((k', v) :: m) = if k' = k then some v else mapGet k m := rfl

theorem mapSet_cons {α : Type} (k k' : Str) (v v' : α) (m : List (Str × α)) :
    mapSet k v ((k', v') :: m)
      = if k' = k then (k', v) :: m else (k', v') :: mapSet k v m := rfl

theorem mapGet_none_iff {α : Type} (k : Str) (m : List (Str × α)) :
    mapGet k m = none ↔ ∀ p ∈ m, ¬ p.1 = k := by
  induction m with
  | nil =>
    constructor
    · intro _ p hp
      exact absurd hp (List.not_mem_nil p)
    · intro _
      rfl
  | cons hd tl ih =>
    obtain ⟨k', v⟩ := hd
    by_cases h : k' = k
    · constructor
      · intro hc
        rw [mapGet_cons, if_pos h] at hc
        exact Option.noConfusion hc
      · intro hall
        exact absurd h (hall (k', v) (List.mem_cons_self _ _))
    · constructor
      · intro hc p hp
        rw [mapGet_cons, if_neg h] at hc
        rcases List.mem_cons.mp hp with h1 | h1
        · rw [h1]
          exact h
        · exact (ih.mp hc) p h1
      · intro hall
        rw [mapGet_cons, if_neg h]
        exact ih.mpr (fun p hp => hall p (List.mem_cons_of_mem _ hp))

theorem mapSet_absent {α : Type} (k : Str) (v : α) (m : List (Str × α))
    (h : mapGet k m = none) : mapSet k v m = m ++ [(k, v)] := by
  induction m with
  | nil => rfl
  | cons hd tl ih =>
    obtain ⟨k', v'⟩ := hd
    have h1 : ¬ k' = k := by
      intro hc
      rw [mapGet_cons, if_pos hc] at h
      exact Option.noConfusion h
    rw [mapGet_cons, if_neg h1] at h
    rw [mapSet_cons, if_neg h1, ih h]
    rfl

theorem mapGet_some_mem {α : Type} (k : Str) (m : List (Str × α)) (v : α)
    (h : mapGet k m = some v) : (k, v) ∈ m := by
  induction m with
  | nil => exact Option.noConfusion h
  | cons hd tl ih =>
    obtain ⟨k', v'⟩ := hd
    by_cases h1 : k' = k
    · rw [mapGet_cons, if_pos h1] at h
      have hv : v' = v := Option.some.inj h
      rw [← h1, ← hv]
      exact List.mem_cons_self _ _
    · rw [mapGet_cons, if_neg h1] at h
      exact List.mem_cons_of_mem _ (ih h)

theorem mem_self_mapSet {α : Type} (k : Str) (v : α) (m : List (Str × α)) :
    (k, v) ∈ mapSet k v m := by
  induction m with
  | nil => exact List.mem_cons_self _ _
  | cons hd tl ih =>
    obtain ⟨k', v'⟩ := hd
    by_cases h1 : k' = k
    · rw [mapSet_cons, if_pos h1, ← h1]
      exact List.mem_cons_self _ _
    · rw [mapSet_cons, if_neg h1]
      exact List.mem_cons_of_mem _ ih

theorem mapSet_keys_present {α : Type} (k : Str) (v w : α) (m : List (Str × α))
    (h : mapGet k m = some w) : (mapSet k v m).map Prod.fst = m.map Prod.fst := by
  induction m with
  | nil => exact Option.noConfusion h
  | cons hd tl ih =>
    obtain ⟨k', v'⟩ := hd
    by_cases h1 : k' = k
    · rw [mapSet_cons, if_pos h1]
      simp
    · rw [mapGet_cons, if_neg h1] at h
      rw [mapSet_cons, if_neg h1]
      simp [ih h]

theorem key_unique_of_nodup {α : Type} (m : List (Str × α)) (k : Str) (a b : α)
    (hn : (m.map Prod.fst).Nodup) (ha : (k, a) ∈ m) (hb : (k, b) ∈ m) : a = b := by
  induction m with
  | nil => simp at ha
  | cons hd tl ih =>
    obtain ⟨k', v⟩ := hd
    have hn1 : ¬ k' ∈ tl.map Prod.fst := (List.nodup_cons.mp hn).1
    have hn2 : (tl.map Prod.fst).Nodup := (List.nodup_cons.mp hn).2
    rcases List.mem_cons.mp ha with h1 | h1
    · rcases List.mem_cons.mp hb with h2 | h2
      · have h3 : ((k, a) : Str × α) = (k, b) := h1.trans h2.symm
        injection h3 with _ h4
      · exfalso
        apply hn1
        have hk : k = k' := congrArg Prod.fst h1
        rw [← hk]
        exact List.mem_map_of_mem Prod.fst h2
    · rcases List.mem_cons.mp hb with h2 | h2
      · exfalso
        apply hn1
        have hk : k = k' := congrArg Prod.fst h2
        rw [← hk]
        exact List.mem_map_of_mem Prod.fst h1
      · exact ih hn2 h1 h2

theorem mem_mapSet_nodup {α : Type} (k : Str) (v : α) (m : List (Str × α))
    (p : Str × α) (hn : (m.map Prod.fst).Nodup) (hp : p ∈ mapSet k v m) :
    p = (k, v) ∨ (p ∈ m ∧ ¬ p.1 = k) := by
  induction m with
  | nil =>
    left
    simpa [mapSet] using hp
  | cons hd tl ih =>
    obtain ⟨k', v'⟩ := hd
    have hn1 : ¬ k' ∈ tl.map Prod.fst := (List.nodup_cons.mp hn).1
    have hn2 : (tl.map Prod.fst).Nodup := (List.nodup_cons.mp hn).2
    by_cases h1 : k' = k
    · rw [mapSet_cons, if_pos h1] at hp
      rcases List.mem_cons.mp hp with h | h
      · left
        rw [h, h1]
      · right
        refine ⟨List.mem_cons_of_mem _ h, ?_⟩
        intro hc
        apply hn1
        rw [h1, ← hc]
        exact List.mem_map_of_mem Prod.fst h
    · rw [mapSet_cons, if_neg h1] at hp
      rcases List.mem_cons.mp hp with h | h
      · right
        constructor
        · rw [h]
          exact List.mem_cons_self _ _
        · rw [h]
          exact h1
      · rcases ih hn2 h with h2 | h2
        · exact Or.inl h2
        · exact Or.inr ⟨List.mem_cons_of_mem _ h2.1, h2.2⟩

theorem mapGet_of_mem_nodup {α : Type} (m : List (Str × α)) (k : Str) (v : α)
    (hn : (m.map Prod.fst).Nodup) (hv : (k, v) ∈ m) : mapGet k m = some v := by
  induction m with
  | nil => simp at hv
  | cons hd tl ih =>
    obtain ⟨k', v'⟩ := hd
    have hn1 : ¬ k' ∈ tl.map Prod.fst := (List.nodup_cons.mp hn).1
    have hn2 : (tl.map Prod.fst).Nodup := (List.nodup_cons.mp hn).2
    rcases List.mem_cons.mp hv with h1 | h1
    · have hk : k = k' := congrArg Prod.fst h1
      have hvv : v = v' := congrArg Prod.snd h1
      rw [mapGet_cons, if_pos hk.symm, hvv]
    · have hne : ¬ k' = k := by
        intro hc
        apply hn1
        rw [hc]
        exact List.mem_map_of_mem Prod.fst h1
      rw [mapGet_cons, if_neg hne]
      exact ih hn2 h1

theorem goodMap_step {α : Type} (key : α → Str) (size : α → Nat) (seen : List α)
    (m : List (Str × α)) (e : α) (h : GoodMap key size seen m) :
    GoodMap key size (seen ++ [e]) (dedupStep key size m e) := by
  obtain ⟨h1, h2, h3⟩ := h
  cases hg : mapGet (key e) m with
  | none =>
    have hstep : dedupStep key size m e = mapSet (key e) e m := by
      unfold dedupStep
      rw [hg]
    rw [hstep, mapSet_absent (key e) e m hg]
    have hkeys : ∀ p ∈ m, ¬ p.1 = key e := (mapGet_none_iff (key e) m).mp hg
    refine ⟨?_, ?_, ?_⟩
    · intro p hp
      rcases List.mem_append.mp hp with hpm | hpe
      · obtain ⟨ha, hb, hc⟩ := h1 p hpm
        refine ⟨ha, List.mem_append_left _ hb, ?_⟩
        intro x hx hkx
        rcases List.mem_append.mp hx with hxs | hxe
        · exact hc x hxs hkx
        · exfalso
          have hxe2 : x = e := by simpa using hxe
          rw [hxe2] at hkx
          exact hkeys p hpm hkx.symm
      · have hpe2 : p = (key e, e) := by simpa using hpe
        rw [hpe2]
        refine ⟨rfl, List.mem_append_right _ (by simp), ?_⟩
        intro x hx hkx
        rcases List.mem_append.mp hx with hxs | hxe
        · exfalso
          obtain ⟨q, hq, hqk⟩ := h2 x hxs
          apply hkeys q hq
          rw [hqk, hkx]
        · have hxe2 : x = e := by simpa using hxe
          rw [hxe2]
    · intro x hx
      rcases List.mem_append.mp hx with hxs | hxe
      · obtain ⟨q, hq, hqk⟩ := h2 x hxs
        exact ⟨q, List.mem_append_left _ hq, hqk⟩
      · have hxe2 : x = e := by simpa using hxe
        exact ⟨(key e, e), List.mem_append_right _ (by simp), by rw [hxe2]⟩
    · rw [List.map_append]
      simp only [List.map_cons, List.map_nil]
      rw [List.nodup_append]
      refine ⟨h3, List.nodup_singleton _, ?_⟩
      intro a ha hb
      have hbe : a = key e := by simpa using hb
      obtain ⟨p, hp, hpa⟩ := List.mem_map.mp ha
      exact hkeys p hp (by rw [hpa, hbe])
  | some old =>
    have hmem : (key e, old) ∈ m := mapGet_some_mem (key e) m old hg
    by_cases hlt : size old < size e
    · have hstep : dedupStep key size m e = mapSet (key e) e m := by
        unfold dedupStep
        rw [hg]
        exact if_pos hlt
      rw [hstep]
      have hkeys : (mapSet (key e) e m).map Prod.fst = m.map Prod.fst :=
        mapSet_keys_present (key e) e old m hg
      refine ⟨?_, ?_, ?_⟩
      · intro p hp
        rcases mem_mapSet_nodup (key e) e m p h3 hp with hpe | ⟨hpm, hpk⟩
        · rw [hpe]
          refine ⟨rfl, List.mem_append_right _ (by simp), ?_⟩
          intro x hx hkx
          rcases List.mem_append.mp hx with hxs | hxe
          · obtain ⟨_, _, hmax⟩ := h1 (key e, old) hmem
            have hb := hmax x hxs hkx
            exact Nat.le_trans hb (Nat.le_of_lt hlt)
          · have hxe2 : x = e := by simpa using hxe
            rw [hxe2]
        · obtain ⟨ha, hb, hc⟩ := h1 p hpm
          refine ⟨ha, List.mem_append_left _ hb, ?_⟩
          intro x hx hkx
          rcases List.mem_append.mp hx with hxs | hxe
          · exact hc x hxs hkx
          · exfalso
            have hxe2 : x = e := by simpa using hxe
            rw [hxe2] at hkx
            exact hpk hkx.symm
      · intro x hx
        rcases List.mem_append.mp hx with hxs | hxe
        · obtain ⟨q, hq, hqk⟩ := h2 x hxs
          have hq2 : q.1 ∈ (mapSet (key e) e m).map Prod.fst := by
            rw [hkeys]
            exact List.mem_map_of_mem Prod.fst hq
          obtain ⟨q2, hq3, hq4⟩ := List.mem_map.mp hq2
          exact ⟨q2, hq3, by rw [hq4, hqk]⟩
        · have hxe2 : x = e := by simpa using hxe
          exact ⟨(key e, e), mem_self_mapSet (key e) e m, by rw [hxe2]⟩
      · rw [hkeys]
        exact h3
    · have hstep : dedupStep key size m e = m := by
        unfold dedupStep
        rw [hg]
        exact if_neg hlt
      rw [hstep]
      refine ⟨?_, ?_, h3⟩
      · intro p hp
        obtain ⟨ha, hb, hc⟩ := h1 p hp
        refine ⟨ha, List.mem_append_left _ hb, ?_⟩
        intro x hx hkx
        rcases List.mem_append.mp hx with hxs | hxe
        · exact hc x hxs hkx
        · have hxe2 : x = e := by simpa using hxe
          rw [hxe2] at hkx ⊢
          have hp2 : (p.1, p.2) ∈ m := by simpa using hp
          rw [← hkx] at hp2
          have hpold : p.2 = old := key_unique_of_nodup m (key e) p.2 old h3 hp2 hmem
          rw [hpold]
          exact Nat.le_of_not_lt hlt
      · intro x hx
        rcases List.mem_append.mp hx with hxs | hxe
        · exact h2 x hxs
        · have hxe2 : x = e := by simpa using hxe
          exact ⟨(key e, old), hmem, by rw [hxe2]⟩

theorem goodMap_fold {α : Type} (key : α → Str) (size : α → Nat) (entries : List α)
    (seen : List α) (m : List (Str × α)) (h : GoodMap key size seen m) :
    GoodMap key size (seen ++ entries) (entries.foldl (dedupStep key size) m) := by
  induction entries generalizing seen m with
  | nil => simpa using h
  | cons e es ih =>
    have h1 := goodMap_step key size seen m e h
    have h2 := ih (seen ++ [e]) (dedupStep key size m e) h1
    simpa [List.append_assoc] using h2

theorem goodMap_dedupFold {α : Type} (key : α → Str) (size : α → Nat) (entries : List α) :
    GoodMap key size entries (entries.foldl (dedupStep key size) []) := by
  have h0 : GoodMap key size [] ([] : List (Str × α)) := by
    refine ⟨?_, ?_, List.nodup_nil⟩
    · intro p hp
      exact absurd hp (List.not_mem_nil p)
    · intro x hx
      exact absurd hx (List.not_mem_nil x)
  simpa using goodMap_fold key size entries [] [] h0

theorem dedupFold_mem {α : Type} (key : α → Str) (size : α → Nat) (entries : List α)
    (e : α) (he : e ∈ dedupFold key size entries) : e ∈ entries := by
  obtain ⟨p, hp, hpe⟩ := List.mem_map.mp he
  obtain ⟨_, hb, _⟩ := (goodMap_dedupFold key size entries).1 p hp
  rw [← hpe]
  exact hb

theorem dedupFold_max {α : Type} (key : α → Str) (size : α → Nat) (entries : List α)
    (e : α) (he : e ∈ dedupFold key size entries) (x : α) (hx : x ∈ entries)
    (hk : key x = key e) : size x ≤ size e := by
  obtain ⟨p, hp, hpe⟩ := List.mem_map.mp he
  obtain ⟨ha, _, hc⟩ := (goodMap_dedupFold key size entries).1 p hp
  rw [← hpe]
  apply hc x hx
  rw [hk, ← hpe, ha]

theorem dedupFold_complete {α : Type} (key : α → Str) (size : α → Nat) (entries : List α)
    (x : α) (hx : x ∈ entries) : ∃ e ∈ dedupFold key size entries, key e = key x := by
  obtain ⟨p, hp, hpk⟩ := (goodMap_dedupFold key size entries).2.1 x hx
  obtain ⟨ha, _, _⟩ := (goodMap_dedupFold key size entries).1 p hp
  exact ⟨p.2, List.mem_map_of_mem Prod.snd hp, by rw [ha, hpk]⟩

theorem dedupFold_pairwise {α : Type} (key : α → Str) (size : α → Nat) (entries : List α) :
    (dedupFold key size entries).Pairwise (fun a b => ¬ key a = key b) := by
  have g := goodMap_dedupFold key size entries
  have hn : ((entries.foldl (dedupStep key size) []).map Prod.fst).Nodup := g.2.2
  have hn2 : (entries.foldl (dedupStep key size) []).Pairwise (fun p q => p.1 ≠ q.1) :=
    List.pairwise_map.mp hn
  unfold dedupFold
  rw [List.pairwise_map]
  refine hn2.imp_of_mem ?_
  intro p q hp hq hne hc
  obtain ⟨hap, _, _⟩ := g.1 p hp
  obtain ⟨haq, _, _⟩ := g.1 q hq
  apply hne
  rw [← hap, ← haq, hc]

theorem dedupStep_noop {α : Type} (key : α → Str) (size : α → Nat) (m : List (Str × α))
    (e : α) (hn : (m.map Prod.fst).Nodup)
    (h : ∃ p ∈ m, p.1 = key e ∧ size e ≤ size p.2) :
    dedupStep key size m e = m := by
  obtain ⟨p, hp, hpk, hps⟩ := h
  have hget : mapGet (key e) m = some p.2 := by
    have hp2 : (key e, p.2) ∈ m := by
      rw [← hpk]
      simpa using hp
    exact mapGet_of_mem_nodup m (key e) p.2 hn hp2
  unfold dedupStep
  rw [hget]
  exact if_neg (Nat.not_lt.mpr hps)

theorem foldl_dedupStep_noop {α : Type} (key : α → Str) (size : α → Nat)
    (m : List (Str × α)) (ys : List α) (hn : (m.map Prod.fst).Nodup)
    (h : ∀ x ∈ ys, ∃ p ∈ m, p.1 = key x ∧ size x ≤ size p.2) :
    ys.foldl (dedupStep key size) m = m := by
  induction ys with
  | nil => rfl
  | cons y ys ih =>
    have hstep : dedupStep key size m y = m :=
      dedupStep_noop key size m y hn (h y (by simp))
    simp only [List.foldl_cons, hstep]
    exact ih (fun x hx => h x (List.mem_cons_of_mem y hx))

theorem dedupFold_self_append {α : Type} (key : α → Str) (size : α → Nat) (xs : List α) :
    dedupFold key size (xs ++ xs) = dedupFold key size xs := by
  have g := goodMap_dedupFold key size xs
  unfold dedupFold
  rw [List.foldl_append]
  rw [foldl_dedupStep_noop key size (xs.foldl (dedupStep key size) []) xs g.2.2]
  intro x hx
  obtain ⟨p, hp, hpk⟩ := g.2.1 x hx
  refine ⟨p, hp, hpk, ?_⟩
  obtain ⟨_, _, hc⟩ := g.1 p hp
  exact hc x hx hpk.symm

/-! ## Helper lemmas for the claim theorems -/

theorem entryKey_of_tupleKey (x e : ChangelogEntry) (h : tupleKey x = tupleKey e) :
    entryKey x = entryKey e := by
  have h1 : x.type = e.type := congrArg Prod.fst h
  have h2 : x.scope = e.scope := congrArg (fun p => p.2.1) h
  have h3 : normalizeDescription x.description = normalizeDescription e.description :=
    congrArg (fun p => p.2.2) h
  unfold entryKey
  rw [h1, h2, h3]

theorem map_title_filterMapAux (entries : List ChangelogEntry) (l : List Str) :
    ((l.filterMap (fun title =>
        if entries.filter (fun e => typeTitles e.type = title) = [] then none
        else some (Section.mk title
          (entries.filter (fun e => typeTitles e.type = title))))).map Section.title)
      = l.filter (fun t => ¬ entries.filter (fun e => typeTitles e.type = t) = []) := by
  induction l with
  | nil => rfl
  | cons t ts ih =>
    simp only [List.filterMap_cons, List.filter_cons]
    by_cases h : entries.filter (fun e => typeTitles e.type = t) = []
    · rw [if_pos h]
      simpa [h] using ih
    · rw [if_neg h]
      simpa [h] using ih

theorem map_title_group (entries : List ChangelogEntry) :
    (groupEntriesByType entries).map Section.title
      = sectionOrder.filter
          (fun t => ¬ entries.filter (fun e => typeTitles e.type = t) = []) := by
  unfold groupEntriesByType
  exact map_title_filterMapAux entries sectionOrder

theorem pre_append_self (a b : Str) : pre a (a ++ b) = true := by
  induction a with
  | nil => simp [pre]
  | cons c cs ih => simp [pre, ih]

theorem takeWhile_append_all (p : Char → Bool) (a : Str) (b : Char) (r : Str)
    (hall : ∀ c ∈ a, p c = true) (hb : p b = false) :
    (a ++ b :: r).takeWhile p = a := by
  induction a with
  | nil => simp [List.takeWhile_cons, hb]
  | cons c cs ih =>
    have hc := hall c (by simp)
    have hrest := ih (fun x hx => hall x (by simp [hx]))
    simp [List.cons_append, List.takeWhile_cons, hc, hrest]

theorem findTypeAlt_append (t : CommitType) (rest : Str) :
    findTypeAlt (typeStr t ++ rest) = some t := by
  cases t <;> simp [findTypeAlt, commitTypeAlternation, typeStr, str, pre, pre_append_self]

theorem matchScoped_eq (sc : Str) (hne : ¬ sc = []) (hAll : ∀ c ∈ sc, ¬ c = ')')
    (r : Str) : matchScoped (sc ++ ')' :: r) = some (sc, r) := by
  unfold matchScoped
  have htw : (sc ++ ')' :: r).takeWhile (fun c => ¬ c = ')') = sc := by
    apply takeWhile_append_all
    · intro c hc
      simp [hAll c hc]
    · simp
  rw [htw, List.drop_left]
  simp [hne]

theorem parseConvCore_desc (message : Str) (p : ParsedCC)
    (h : parseConvCore message = some p) : ¬ p.description = [] := by
  unfold parseConvCore at h
  split at h
  · exact Option.noConfusion h
  · split at h
    · split at h
      · split at h
        · rename_i hok
          split at h
          · rename_i hdesc
            have hp := Option.some.inj h
            rw [← hp]
            have := (Bool.and_eq_true _ _).mp hdesc
            simpa using this.1
          · exact Option.noConfusion h
        · exact Option.noConfusion h
      · exact Option.noConfusion h
    · split at h
      · rename_i hdesc
        have hp := Option.some.inj h
        rw [← hp]
        have := (Bool.and_eq_true _ _).mp hdesc
        simpa using this.1
      · exact Option.noConfusion h
    · exact Option.noConfusion h

theorem containsSub_of_append (pat A B : Str) :
    containsSub pat (A ++ (pat ++ B)) = true := by
  induction A with
  | nil =>
    rw [List.nil_append]
    cases pat with
    | nil =>
      cases B with
      | nil => rfl
      | cons b bs => simp [containsSub, pre]
    | cons p ps => simp [containsSub, pre, pre_append_self]
  | cons a as ih => simp [containsSub, ih]

theorem metadataBlock_split (l ts X Y : Str) :
    X ++ '\n' :: metadataBlock l ts ++ Y
      = (X ++ '\n' :: (str ("<!-- Generated: ") ++ ts ++ str (" Commit: ") ++ l
          ++ str (" -->\n")))
        ++ ((str ("<!-- CI-LAST-PROCESSED: ") ++ l ++ str (" -->")) ++ Y) := by
  simp [metadataBlock, str, List.append_assoc]

theorem addMetadata_contains_ci (content l ts : Str) :
    containsSub (str ("<!-- CI-LAST-PROCESSED: ") ++ l ++ str (" -->"))
      (addMetadata content l ts) = true := by
  unfold addMetadata
  cases hf : findSub unreleasedHeading (removeExistingMetadata content) with
  | some i =>
    simp only [metadataBlock_split]
    exact containsSub_of_append _ _ _
  | none =>
    simp only [metadataBlock_split]
    exact containsSub_of_append _ _ _

theorem takeWhile_append_of_fail (p : Char → Bool) (v w : Str)
    (h : ∃ c ∈ v, p c = false) : (v ++ w).takeWhile p = v.takeWhile p := by
  induction v with
  | nil =>
    obtain ⟨c, hc, _⟩ := h
    simp at hc
  | cons a v1 ih =>
    cases hpa : p a with
    | false => simp [List.takeWhile_cons, hpa]
    | true =>
      simp only [List.cons_append, List.takeWhile_cons, hpa, if_true]
      obtain ⟨c, hc, hcf⟩ := h
      rcases List.mem_cons.mp hc with h1 | h1
      · exfalso
        rw [h1, hpa] at hcf
        exact Bool.noConfusion hcf
      · rw [ih ⟨c, h1, hcf⟩]

theorem takeWhile_length_lt (p : Char → Bool) (v : Str) (h : ∃ c ∈ v, p c = false) :
    (v.takeWhile p).length < v.length := by
  induction v with
  | nil =>
    obtain ⟨c, hc, _⟩ := h
    simp at hc
  | cons a v1 ih =>
    cases hpa : p a with
    | false =>
      simp [List.takeWhile_cons, hpa]
    | true =>
      obtain ⟨c, hc, hcf⟩ := h
      rcases List.mem_cons.mp hc with h1 | h1
      · exfalso
        rw [h1, hpa] at hcf
        exact Bool.noConfusion hcf
      · have h2 := ih ⟨c, h1, hcf⟩
        simp only [List.takeWhile_cons, hpa, if_true, List.length_cons]
        omega

theorem pre_of_append_le (pat X Y : Str) (h : pre pat (X ++ Y) = true)
    (hl : pat.length ≤ X.length) : pre pat X = true := by
  induction pat generalizing X with
  | nil => simp [pre]
  | cons p ps ih =>
    cases X with
    | nil => simp at hl
    | cons x xs =>
      simp only [List.cons_append, pre, Bool.and_eq_true] at h
      simp only [pre, Bool.and_eq_true]
      have hl2 : ps.length ≤ xs.length := by
        simp only [List.length_cons] at hl
        omega
      exact ⟨h.1, ih xs h.2 hl2⟩

theorem containsSub_of_pre_drop (pat v : Str) (k : Nat)
    (h : pre pat (v.drop k) = true) : containsSub pat v = true := by
  induction v generalizing k with
  | nil =>
    simp only [List.drop_nil] at h
    simpa [containsSub] using h
  | cons a v1 ih =>
    cases k with
    | zero =>
      simp only [List.drop_zero] at h
      simp [containsSub, h]
    | succ m =>
      simp only [List.drop_succ_cons] at h
      simp [containsSub, ih m h]

theorem pre_close_mid (w B : Str) (h1 : 1 ≤ w.length) (h2 : w.length ≤ 3) :
    pre (str (" -->")) (w ++ (str (" -->") ++ B)) = false := by
  cases w with
  | nil => simp at h1
  | cons a w1 =>
    cases w1 with
    | nil => simp [str, pre]
    | cons b w2 =>
      cases w2 with
      | nil => simp [str, pre]
      | cons c w3 =>
        cases w3 with
        | nil => simp [str, pre]
        | cons d w4 =>
          exfalso
          simp only [List.length_cons] at h2
          omega

theorem hexCloseSearch_eq_none (r : Str) (n : Nat)
    (h : ∀ k, 1 ≤ k → k ≤ n → pre (str (" -->")) (r.drop k) = false) :
    hexCloseSearch r n = none := by
  induction n with
  | zero => rfl
  | succ m ih =>
    unfold hexCloseSearch
    rw [h (m + 1) (by omega) (by omega)]
    simp only [Bool.false_eq_true, if_false]
    exact ih (fun k hk1 hk2 => h k hk1 (by omega))

theorem matchLastProcessedAt_of_not_pre (s : Str)
    (h : pre extractMarker s = false) : matchLastProcessedAt s = none := by
  unfold matchLastProcessedAt
  rw [h]
  rfl

theorem matchLastProcessedAt_marker (v B : Str)
    (hbad : ∃ c ∈ v, isHexC c = false)
    (harr : containsSub (str (" -->")) v = false) :
    matchLastProcessedAt (extractMarker ++ (v ++ (str (" -->") ++ B))) = none := by
  unfold matchLastProcessedAt
  rw [pre_append_self, if_pos rfl, List.drop_left]
  have hrun : ((v ++ (str (" -->") ++ B)).takeWhile isHexC) = v.takeWhile isHexC :=
    takeWhile_append_of_fail isHexC v _ hbad
  rw [hrun]
  have hj : (v.takeWhile isHexC).length < v.length := takeWhile_length_lt isHexC v hbad
  have hsearch : hexCloseSearch (v ++ (str (" -->") ++ B))
      (v.takeWhile isHexC).length = none := by
    apply hexCloseSearch_eq_none
    intro k hk1 hk2
    have hkv : k < v.length := by omega
    rw [List.drop_append_of_le_length (by omega)]
    cases hpre : pre (str (" -->")) (v.drop k ++ (str (" -->") ++ B)) with
    | false => rfl
    | true =>
      exfalso
      by_cases hd4 : 4 ≤ v.length - k
      · have hlen : (str (" -->")).length ≤ (v.drop k).length := by
          rw [show (str (" -->")).length = 4 from rfl, List.length_drop]
          omega
        have h5 := pre_of_append_le _ _ _ hpre hlen
        have h6 := containsSub_of_pre_drop _ v k h5
        rw [harr] at h6
        exact Bool.noConfusion h6
      · have hw1 : 1 ≤ (v.drop k).length := by
          rw [List.length_drop]
          omega
        have hw3 : (v.drop k).length ≤ 3 := by
          rw [List.length_drop]
          omega
        have h7 := pre_close_mid (v.drop k) B hw1 hw3
        rw [h7] at hpre
        exact Bool.noConfusion hpre
  rw [hsearch]

theorem extractLastProcessed_eq_none (s : Str)
    (h : ∀ p, p ≤ s.length → matchLastProcessedAt (s.drop p) = none) :
    extractLastProcessed s = none := by
  induction s with
  | nil => rfl
  | cons c rest ih =>
    have h0 := h 0 (by omega)
    rw [List.drop_zero] at h0
    unfold extractLastProcessed
    rw [h0]
    exact ih (fun p hp => by
      have hp1 := h (p + 1) (by simp only [List.length_cons]; omega)
      simpa [List.drop_succ_cons] using hp1)

/-! ## Counting occurrences around an insertion (toward claim C2) -/

theorem pre_extend (pat X Z : Str) (h : pre pat X = true) : pre pat (X ++ Z) = true := by
  induction pat generalizing X with
  | nil => simp [pre]
  | cons p ps ih =>
    cases X with
    | nil => simp [pre] at h
    | cons x xs =>
      simp only [pre, Bool.and_eq_true] at h
      simp only [List.cons_append, pre, Bool.and_eq_true]
      exact ⟨h.1, ih xs h.2⟩

theorem pre_take (pat Y : Str) (n : Nat) (h : pre pat Y = true) :
    pre (pat.take n) Y = true := by
  induction pat generalizing Y n with
  | nil => simp [List.take_nil, pre]
  | cons p ps ih =>
    cases n with
    | zero => simp [pre]
    | succ m =>
      cases Y with
      | nil => simp [pre] at h
      | cons y ys =>
        simp only [pre, Bool.and_eq_true] at h
        simp only [List.take_succ_cons, pre, Bool.and_eq_true]
        exact ⟨h.1, ih ys m h.2⟩

theorem mem_of_pre_overlap (pat W Z : Str) (d : Char)
    (h : pre pat (W ++ d :: Z) = true) (hl : W.length < pat.length) : d ∈ pat := by
  induction pat generalizing W with
  | nil => simp at hl
  | cons p ps ih =>
    cases W with
    | nil =>
      simp only [List.nil_append, pre, Bool.and_eq_true, decide_eq_true_eq] at h
      rw [h.1]
      exact List.mem_cons_self _ _
    | cons w W2 =>
      simp only [List.cons_append, pre, Bool.and_eq_true] at h
      simp only [List.length_cons] at hl
      exact List.mem_cons_of_mem _ (ih W2 h.2 (by omega))

theorem containsSub_exists (pat s : Str) (h : containsSub pat s = true) :
    ∃ q, pre pat (s.drop q) = true := by
  induction s with
  | nil => exact ⟨0, by simpa [containsSub] using h⟩
  | cons c rest ih =>
    simp only [containsSub, Bool.or_eq_true] at h
    rcases h with h | h
    · exact ⟨0, h⟩
    · obtain ⟨q, hq⟩ := ih h
      exact ⟨q + 1, by simpa [List.drop_succ_cons] using hq⟩

theorem countSubstr_eq_zero (pat s : Str) (h : containsSub pat s = false) :
    countSubstr s pat = 0 := by
  induction s with
  | nil =>
    simp only [containsSub] at h
    simp [countSubstr, h]
  | cons c rest ih =>
    simp only [containsSub, Bool.or_eq_false_iff] at h
    simp [countSubstr, h.1, ih h.2]

theorem countSubstr_append (pat X Y : Str) :
    countSubstr (X ++ Y) pat = countPreExt pat Y X + countSubstr Y pat := by
  induction X with
  | nil => simp [countPreExt]
  | cons c X2 ih =>
    simp only [List.cons_append, countSubstr, countPreExt, List.append_eq, ih]
    omega

theorem countPreExt_zero_of (pat Y T : Str)
    (h : ∀ p, p < T.length → pre pat (T.drop p ++ Y) = false) :
    countPreExt pat Y T = 0 := by
  induction T with
  | nil => rfl
  | cons c T2 ih =>
    have h0 := h 0 (by simp)
    rw [List.drop_zero, List.cons_append] at h0
    simp only [countPreExt, h0]
    simp only [Bool.false_eq_true, if_false, Nat.zero_add]
    exact ih (fun p hp => by
      have hp1 := h (p + 1) (by simp only [List.length_cons]; omega)
      rwa [List.drop_succ_cons] at hp1)

theorem countPreExt_skip (pt S X Y : Str) (hS : ∀ c ∈ S, ¬ c = '<') :
    countPreExt ('<' :: pt) Y (S ++ X) = countPreExt ('<' :: pt) Y X := by
  induction S with
  | nil => rfl
  | cons c S2 ih =>
    have hc : ¬ '<' = c := fun h => hS c (List.mem_cons_self _ _) h.symm
    simp only [List.cons_append, countPreExt, List.append_eq]
    simp only [show pre ('<' :: pt) (c :: (S2 ++ X ++ Y)) = false by simp [pre, hc],
      Bool.false_eq_true, if_false, Nat.zero_add]
    exact ih (fun d hd => hS d (List.mem_cons_of_mem _ hd))

theorem countPreExt_all_ne (pt T Y : Str) (hT : ∀ c ∈ T, ¬ c = '<') :
    countPreExt ('<' :: pt) Y T = 0 := by
  have h := countPreExt_skip pt T [] Y hT
  rw [List.append_nil] at h
  exact h.trans rfl

theorem countPreExt_block_hit (pt b rest Y : Str) (hb : ∀ c ∈ b, ¬ c = '<')
    (hpre : pre ('<' :: pt) ('<' :: b) = true) :
    countPreExt ('<' :: pt) Y (('<' :: b) ++ rest)
      = 1 + countPreExt ('<' :: pt) Y rest := by
  simp only [List.cons_append, countPreExt, List.append_eq]
  rw [countPreExt_skip pt b rest Y hb]
  have h1 : pre ('<' :: pt) ('<' :: (b ++ (rest ++ Y))) = true := by
    have h2 := pre_extend _ _ (rest ++ Y) hpre
    simpa [List.append_assoc] using h2
  simp [h1]

theorem countPreExt_block_miss (pt b rest Y : Str) (hb : ∀ c ∈ b, ¬ c = '<')
    (hmiss : pre (('<' :: pt).take ('<' :: b).length) ('<' :: b) = false) :
    countPreExt ('<' :: pt) Y (('<' :: b) ++ rest)
      = countPreExt ('<' :: pt) Y rest := by
  simp only [List.cons_append, countPreExt, List.append_eq]
  rw [countPreExt_skip pt b rest Y hb]
  have h1 : pre ('<' :: pt) ('<' :: (b ++ (rest ++ Y))) = false := by
    cases hq : pre ('<' :: pt) ('<' :: (b ++ (rest ++ Y))) with
    | false => rfl
    | true =>
      exfalso
      have h2 : pre ('<' :: pt) (('<' :: b) ++ (rest ++ Y)) = true := by
        simpa [List.append_assoc] using hq
      have h3 := pre_take _ _ ('<' :: b).length h2
      have h4 := pre_of_append_le _ _ _ h3 (List.length_take_le _ _)
      rw [hmiss] at h4
      exact Bool.noConfusion h4
  simp [h1]

theorem metadataBlock_assoc (lc ts : Str) :
    metadataBlock lc ts
      = str ("<!-- Generated: ") ++ (ts ++ (str (" Commit: ") ++ (lc ++ (str (" -->\n")
        ++ (str ("<!-- CI-LAST-PROCESSED: ") ++ (lc ++ str (" -->"))))))) := by
  have hsplit : str (" -->\n<!-- CI-LAST-PROCESSED: ")
      = str (" -->\n") ++ str ("<!-- CI-LAST-PROCESSED: ") := by decide
  unfold metadataBlock
  rw [hsplit]
  simp [List.append_assoc]

theorem countPreExt_mb_gen (lc ts Y : Str)
    (hlt : ∀ c ∈ lc, ¬ c = '<') (htt : ∀ c ∈ ts, ¬ c = '<') :
    countPreExt genMarker Y (metadataBlock lc ts) = 1 := by
  have hb1 : ∀ c ∈ str ("!-- Generated: "), ¬ c = '<' := by decide
  have hb2 : ∀ c ∈ str ("!-- CI-LAST-PROCESSED: "), ¬ c = '<' := by decide
  have hA2 : ∀ c ∈ str (" Commit: "), ¬ c = '<' := by decide
  have hA3 : ∀ c ∈ str (" -->\n"), ¬ c = '<' := by decide
  have hp1 : pre ('<' :: str ("!-- Generated:")) ('<' :: str ("!-- Generated: ")) = true := by
    decide
  have hm2 : pre (('<' :: str ("!-- Generated:")).take
      ('<' :: str ("!-- CI-LAST-PROCESSED: ")).length)
      ('<' :: str ("!-- CI-LAST-PROCESSED: ")) = false := by decide
  have he : ∀ Z : Str, countPreExt ('<' :: str ("!-- Generated:")) Z (str (" -->")) = 0 :=
    fun Z => countPreExt_all_ne _ _ _ (by decide)
  rw [metadataBlock_assoc,
    show genMarker = '<' :: str ("!-- Generated:") from rfl,
    show str ("<!-- Generated: ") = ('<' :: str ("!-- Generated: ")) from rfl,
    show str ("<!-- CI-LAST-PROCESSED: ") = ('<' :: str ("!-- CI-LAST-PROCESSED: ")) from rfl]
  rw [countPreExt_block_hit _ _ _ _ hb1 hp1]
  rw [countPreExt_skip _ _ _ _ htt]
  rw [countPreExt_skip _ _ _ _ hA2]
  rw [countPreExt_skip _ _ _ _ hlt]
  rw [countPreExt_skip _ _ _ _ hA3]
  rw [countPreExt_block_miss _ _ _ _ hb2 hm2]
  rw [countPreExt_skip _ _ _ _ hlt]
  rw [he Y]

theorem countPreExt_mb_ci (lc ts Y : Str)
    (hlt : ∀ c ∈ lc, ¬ c = '<') (htt : ∀ c ∈ ts, ¬ c = '<') :
    countPreExt ciMarker Y (metadataBlock lc ts) = 1 := by
  have hb1 : ∀ c ∈ str ("!-- Generated: "), ¬ c = '<' := by decide
  have hb2 : ∀ c ∈ str ("!-- CI-LAST-PROCESSED: "), ¬ c = '<' := by decide
  have hA2 : ∀ c ∈ str (" Commit: "), ¬ c = '<' := by decide
  have hA3 : ∀ c ∈ str (" -->\n"), ¬ c = '<' := by decide
  have hm1 : pre (('<' :: str ("!-- CI-LAST-PROCESSED:")).take
      ('<' :: str ("!-- Generated: ")).length)
      ('<' :: str ("!-- Generated: ")) = false := by decide
  have hp2 : pre ('<' :: str ("!-- CI-LAST-PROCESSED:"))
      ('<' :: str ("!-- CI-LAST-PROCESSED: ")) = true := by decide
  have he : ∀ Z : Str,
      countPreExt ('<' :: str ("!-- CI-LAST-PROCESSED:")) Z (str (" -->")) = 0 :=
    fun Z => countPreExt_all_ne _ _ _ (by decide)
  rw [metadataBlock_assoc,
    show ciMarker = '<' :: str ("!-- CI-LAST-PROCESSED:") from rfl,
    show str ("<!-- Generated: ") = ('<' :: str ("!-- Generated: ")) from rfl,
    show str ("<!-- CI-LAST-PROCESSED: ") = ('<' :: str ("!-- CI-LAST-PROCESSED: ")) from rfl]
  rw [countPreExt_block_miss _ _ _ _ hb1 hm1]
  rw [countPreExt_skip _ _ _ _ htt]
  rw [countPreExt_skip _ _ _ _ hA2]
  rw [countPreExt_skip _ _ _ _ hlt]
  rw [countPreExt_skip _ _ _ _ hA3]
  rw [countPreExt_block_hit _ _ _ _ hb2 hp2]
  rw [countPreExt_skip _ _ _ _ hlt]
  rw [he Y]

theorem count_inserted (pt D mb : Str) (k : Nat)
    (hnl : ∀ c ∈ ('<' :: pt), ¬ c = '\n')
    (hD : containsSub ('<' :: pt) D = false)
    (hmb : countPreExt ('<' :: pt) ('\n' :: D.drop k) mb = 1) :
    countSubstr ((D.take k ++ ('\n' :: mb)) ++ ('\n' :: D.drop k)) ('<' :: pt) = 1 := by
  have hDdrop : containsSub ('<' :: pt) (D.drop k) = false := by
    cases hq : containsSub ('<' :: pt) (D.drop k) with
    | false => rfl
    | true =>
      exfalso
      obtain ⟨q, hq2⟩ := containsSub_exists _ _ hq
      rw [List.drop_drop] at hq2
      have h3 := containsSub_of_pre_drop _ _ _ hq2
      rw [hD] at h3
      exact Bool.noConfusion h3
  have hstep1 : (D.take k ++ ('\n' :: mb)) ++ ('\n' :: D.drop k)
      = D.take k ++ ('\n' :: (mb ++ ('\n' :: D.drop k))) := by
    simp [List.append_assoc]
  rw [hstep1, countSubstr_append]
  have hzero : countPreExt ('<' :: pt) ('\n' :: (mb ++ ('\n' :: D.drop k))) (D.take k) = 0 := by
    apply countPreExt_zero_of
    intro p hp
    cases hq : pre ('<' :: pt)
        ((D.take k).drop p ++ ('\n' :: (mb ++ ('\n' :: D.drop k)))) with
    | false => rfl
    | true =>
      exfalso
      by_cases hfit : ('<' :: pt).length ≤ ((D.take k).drop p).length
      · have h2 := pre_of_append_le _ _ _ hq hfit
        have h3 := pre_extend _ _ (D.drop k) h2
        have h4 : (D.take k).drop p ++ D.drop k = D.drop p := by
          rw [← List.drop_append_of_le_length (Nat.le_of_lt hp), List.take_append_drop]
        rw [h4] at h3
        have h6 := containsSub_of_pre_drop _ _ _ h3
        rw [hD] at h6
        exact Bool.noConfusion h6
      · have h7 : ((D.take k).drop p).length < ('<' :: pt).length := by omega
        have h8 := mem_of_pre_overlap _ _ _ '\n' hq h7
        exact hnl '\n' h8 rfl
  rw [hzero]
  have hcons : countSubstr ('\n' :: (mb ++ ('\n' :: D.drop k))) ('<' :: pt)
      = countSubstr (mb ++ ('\n' :: D.drop k)) ('<' :: pt) := by
    simp [countSubstr, pre]
  rw [hcons, countSubstr_append, hmb]
  have hlast : countSubstr ('\n' :: D.drop k) ('<' :: pt) = 0 := by
    apply countSubstr_eq_zero
    simp [containsSub, pre, hDdrop]
  rw [hlast]

theorem stopLenMeta_lt (s : Str) (q : Nat) (hq : q < stopLenMeta s) :
    pre (str ("\n## ")) (s.drop q) = false := by
  induction s generalizing q with
  | nil => simp [stopLenMeta] at hq
  | cons c rest ih =>
    by_cases h : pre (str ("\n## ")) (c :: rest) = true
    · simp only [stopLenMeta] at hq
      rw [if_pos h] at hq
      exact absurd hq (by omega)
    · simp only [stopLenMeta] at hq
      rw [if_neg h] at hq
      cases q with
      | zero =>
        rw [List.drop_zero]
        exact Bool.eq_false_iff.mpr h
      | succ m =>
        rw [List.drop_succ_cons]
        exact ih m (by omega)

theorem stopLenMeta_at (s : Str) :
    s.drop (stopLenMeta s) = [] ∨ pre (str ("\n## ")) (s.drop (stopLenMeta s)) = true := by
  induction s with
  | nil => exact Or.inl rfl
  | cons c rest ih =>
    by_cases h : pre (str ("\n## ")) (c :: rest) = true
    · right
      simp only [stopLenMeta]
      rw [if_pos h, List.drop_zero]
      exact h
    · simp only [stopLenMeta]
      rw [if_neg h]
      have hd : (c :: rest).drop (1 + stopLenMeta rest) = rest.drop (stopLenMeta rest) := by
        rw [Nat.add_comm, List.drop_succ_cons]
      rw [hd]
      exact ih

/-! ## Claim theorems -/

/-- Claim C1 (code bug): for a document whose Unreleased block body is
empty — the engine's own bootstrap document — the merge does not replace
the body; the empty capture is falsy, the code takes its "no Unreleased
section" path and inserts a second block before the existing heading, so
the result contains two `## [Unreleased]` headings instead of exactly one. -/
theorem c1_empty_body_duplicates_unreleased_heading :
    countSubstr createInitialChangelog unreleasedHeading = 1
    ∧ countSubstr (mergeWithExistingChangelog createInitialChangelog demoSection)
        unreleasedHeading = 2 := by decide

/-- Claim C2 (counterexample): on a document with nested stale watermark
comments, stripping the inner comments re-joins the surrounding text into a
complete stale pair which survives, so the stamped document carries two
watermark pairs, not exactly one. -/
theorem c2_counterexample :
    addMetadata c2advDoc (str ("abc123")) (str ("2024-06-01T00:00:00.000Z"))
      = str ("<!-- Generated: y -->\n<!-- CI-LAST-PROCESSED: y -->\n<!-- Generated: 2024-06-01T00:00:00.000Z Commit: abc123 -->\n<!-- CI-LAST-PROCESSED: abc123 -->\n")
    ∧ countSubstr (addMetadata c2advDoc (str ("abc123")) (str ("2024-06-01T00:00:00.000Z")))
        genMarker = 2
    ∧ countSubstr (addMetadata c2advDoc (str ("abc123")) (str ("2024-06-01T00:00:00.000Z")))
        ciMarker = 2 := by decide

/-- Claim C3 (counterexample): a scoped entry line present in the first
run's output is lost by the second run's merge — `intelligentMerge` only
retains lines starting with `-`, and scoped lines carry no bullet, so
re-merging a body holding one scoped line yields an empty result. -/
theorem c3_counterexample :
    containsSub (str ("**ui**: responsive nav layout")) c3scoped = true
    ∧ intelligentMerge c3scoped c3scoped = [] := by decide

/-- Claim C7 (code bug): a non-preview generate run over a document whose
Unreleased block is empty absorbs the following dated release block into
the Unreleased block — the whitespace of the regex swallows the separating
newlines, the release heading text is captured as the block body, merged
and discarded — so the persisted output no longer contains the
`## [1.0.0]` release heading at all. -/
theorem c7_release_block_destroyed :
    containsSub (str ("## [1.0.0]")) c7doc = true
    ∧ (c7run.toOption.bind GenResult.written).isSome = true
    ∧ ((c7run.toOption.bind GenResult.written).map
        (fun w => containsSub (str ("## [1.0.0]")) w)) = some false := by decide

/-- Claim C8 (counterexample): when the HEAD-hash lookup fails the run does
not fail — `getLatestCommitHash` swallows the error and returns the literal
`unknown`, and the changelog is written with the fabricated value
`<!-- CI-LAST-PROCESSED: unknown -->`. -/
theorem c8_counterexample :
    (c8run.toOption.bind GenResult.written).isSome = true
    ∧ ((c8run.toOption.bind GenResult.written).map
        (fun w => containsSub (str ("<!-- CI-LAST-PROCESSED: unknown -->")) w))
      = some true := by decide

/-- Claim C9 (counterexample): the parser can produce a description that is
whitespace-only — `feat:  ` matches the conventional regex with the single
space as its description, which trims to nothing. -/
theorem c9_counterexample :
    parseConventionalCommit (str ("feat:  ")) = ⟨.feat, none, [' ']⟩
    ∧ trimWs (parseConventionalCommit (str ("feat:  "))).description = [] := by decide

/-- Claim C3 (amended): within the merged output no two retained entries
share both section and content, every retained entry comes from the
existing or the new body, and re-merging the same section is the same as a
single merge (`intelligentMerge N N = intelligentMerge [] N`), so unscoped
bullet lines are neither duplicated nor lost by a re-run; scoped
`**scope**:` lines, however, carry no leading bullet and are dropped by the
merge (see the counterexample), contrary to the claim as stated. -/
theorem c3_merge_no_duplicates (E N : Str) :
    (deduplicateChangelogEntries
        (parseExistingChangelogEntries E ++ parseExistingChangelogEntries N)).Pairwise
      (fun a b => ¬ (a.1 = b.1 ∧ a.2 = b.2))
    ∧ (∀ e ∈ deduplicateChangelogEntries
          (parseExistingChangelogEntries E ++ parseExistingChangelogEntries N),
        e ∈ parseExistingChangelogEntries E ++ parseExistingChangelogEntries N)
    ∧ intelligentMerge N N = intelligentMerge [] N := by
  refine ⟨?_, ?_, ?_⟩
  · have hp := dedupFold_pairwise ceKey (fun p => p.2.length)
      (parseExistingChangelogEntries E ++ parseExistingChangelogEntries N)
    refine hp.imp ?_
    intro a b h hc
    apply h
    have hab : a = b := Prod.ext hc.1 hc.2
    rw [hab]
  · intro e he
    exact dedupFold_mem ceKey (fun p => p.2.length) _ e he
  · unfold intelligentMerge deduplicateChangelogEntries
    simp only [show parseExistingChangelogEntries [] = [] from rfl, List.nil_append,
      dedupFold_self_append]

/-- Witness for C3: merging a one-bullet section with itself keeps exactly
the single bullet line, and the retained entry is one of the inputs. -/
theorem c3_merge_witness :
    ((str ("Added"), str ("- first entry line")) ∈
        parseExistingChangelogEntries (str ("### Added\n\n- first entry line"))
        ++ parseExistingChangelogEntries (str ("### Added\n\n- first entry line")))
    ∧ intelligentMerge (str ("### Added\n\n- first entry line"))
          (str ("### Added\n\n- first entry line"))
        = intelligentMerge [] (str ("### Added\n\n- first entry line")) :=
  ⟨(c3_merge_no_duplicates (str ("### Added\n\n- first entry line"))
      (str ("### Added\n\n- first entry line"))).2.1
    (str ("Added"), str ("- first entry line")) (by decide),
   (c3_merge_no_duplicates (str ("### Added\n\n- first entry line"))
      (str ("### Added\n\n- first entry line"))).2.2⟩

/-- Claim C5 (confirmed): `deduplicateEntries` keeps at most one entry per
`(type, scope, normalized-description)` key (the code composes the key into
the string `${type}:${scope || ''}:${normalizedDesc}`, and equal tuples give
equal strings); every retained entry is an input entry whose raw description
length is maximal among the input entries sharing its tuple key; and every
input entry has a retained representative under the composed string key. -/
theorem c5_dedupe_unique_and_max (entries : List ChangelogEntry) :
    (deduplicateEntries entries).Pairwise (fun a b => ¬ tupleKey a = tupleKey b)
    ∧ (∀ e ∈ deduplicateEntries entries, e ∈ entries
        ∧ ∀ x ∈ entries, tupleKey x = tupleKey e →
            x.description.length ≤ e.description.length)
    ∧ (∀ x ∈ entries, ∃ e ∈ deduplicateEntries entries, entryKey e = entryKey x) := by
  refine ⟨?_, ?_, ?_⟩
  · have hp := dedupFold_pairwise entryKey (fun e => e.description.length) entries
    refine hp.imp ?_
    intro a b h hc
    exact h (entryKey_of_tupleKey a b hc)
  · intro e he
    refine ⟨dedupFold_mem entryKey (fun e => e.description.length) entries e he, ?_⟩
    intro x hx hk
    exact dedupFold_max entryKey (fun e => e.description.length) entries e he x hx
      (entryKey_of_tupleKey x e hk)
  · intro x hx
    exact dedupFold_complete entryKey (fun e => e.description.length) entries x hx

/-- Witness for C5: of two entries sharing a key (same type and scope,
descriptions normalising identically), the longer-description one is
retained and bounds the other's length. -/
theorem c5_dedupe_witness :
    (ChangelogEntry.mk CommitType.feat (some (str ("api")))
        (str ("Resolve   Timeout")) (str ("h2"))) ∈
      deduplicateEntries
        [⟨CommitType.feat, some (str ("api")), str ("resolve timeout"), str ("h1")⟩,
         ⟨CommitType.feat, some (str ("api")), str ("Resolve   Timeout"), str ("h2")⟩]
    ∧ (str ("resolve timeout")).length ≤ (str ("Resolve   Timeout")).length :=
  ⟨by decide,
   ((c5_dedupe_unique_and_max
      [⟨CommitType.feat, some (str ("api")), str ("resolve timeout"), str ("h1")⟩,
       ⟨CommitType.feat, some (str ("api")), str ("Resolve   Timeout"), str ("h2")⟩]).2.1
      ⟨CommitType.feat, some (str ("api")), str ("Resolve   Timeout"), str ("h2")⟩
      (by decide)).2
    ⟨CommitType.feat, some (str ("api")), str ("resolve timeout"), str ("h1")⟩
    (by decide) (by decide)⟩

/-- Claim C6 (confirmed): the grouped sections' titles always form a
subsequence of the fixed category order (Added, Fixed, Performance,
Security, Changed, Documentation, Testing, Maintenance, CI/CD, Build, Code
Style), the titles surviving the render filter still do, and an input with
only `feat` and `fix` entries groups to a subsequence of
`[Added, Fixed]` — "Added" before "Fixed", never the reverse. -/
theorem c6_fixed_section_order (entries : List ChangelogEntry) :
    List.Sublist ((groupEntriesByType entries).map Section.title) sectionOrder
    ∧ List.Sublist
        (((groupEntriesByType entries).filter
            (fun s => (renderSection s).isSome)).map Section.title) sectionOrder
    ∧ ((∀ e ∈ entries, e.type = CommitType.feat ∨ e.type = CommitType.fix) →
        List.Sublist ((groupEntriesByType entries).map Section.title)
          [str ("Added"), str ("Fixed")]) := by
  have hsub : List.Sublist ((groupEntriesByType entries).map Section.title) sectionOrder := by
    rw [map_title_group]
    exact List.filter_sublist sectionOrder
  refine ⟨hsub, ?_, ?_⟩
  · have h1 : List.Sublist
        ((groupEntriesByType entries).filter (fun s => (renderSection s).isSome))
        (groupEntriesByType entries) := List.filter_sublist _
    exact (h1.map Section.title).trans hsub
  · intro hft
    have hvan : ∀ t : Str, ¬ t = str ("Added") → ¬ t = str ("Fixed") →
        entries.filter (fun e => typeTitles e.type = t) = [] := by
      intro t h1 h2
      rw [List.filter_eq_nil_iff]
      intro e he
      simp only [decide_eq_true_eq]
      intro hc
      rcases hft e he with h | h
      · rw [h] at hc
        exact h1 (by rw [← hc]; rfl)
      · rw [h] at hc
        exact h2 (by rw [← hc]; rfl)
    rw [map_title_group]
    have hdecomp : sectionOrder
        = [str ("Added"), str ("Fixed")]
          ++ [str ("Performance"), str ("Security"), str ("Changed"),
              str ("Documentation"), str ("Testing"), str ("Maintenance"),
              str ("CI/CD"), str ("Build"), str ("Code Style")] := rfl
    rw [hdecomp, List.filter_append]
    have hnil : ([str ("Performance"), str ("Security"), str ("Changed"),
          str ("Documentation"), str ("Testing"), str ("Maintenance"),
          str ("CI/CD"), str ("Build"), str ("Code Style")]).filter
        (fun t => ¬ entries.filter (fun e => typeTitles e.type = t) = []) = [] := by
      rw [List.filter_eq_nil_iff]
      intro t ht
      simp only [List.mem_cons, List.not_mem_nil, or_false] at ht
      have hfil : entries.filter (fun e => typeTitles e.type = t) = [] := by
        rcases ht with rfl | rfl | rfl | rfl | rfl | rfl | rfl | rfl | rfl
        all_goals exact hvan _ (by decide) (by decide)
      simp [hfil]
    rw [hnil, List.append_nil]
    exact List.filter_sublist _

/-- Witness for C6: a fix-then-feat input groups with "Added" first. -/
theorem c6_order_witness :
    (∀ e ∈ [ChangelogEntry.mk CommitType.fix none (str ("resolve timeout issue")) (str ("h1")),
            ChangelogEntry.mk CommitType.feat none (str ("responsive navigation")) (str ("h2"))],
      e.type = CommitType.feat ∨ e.type = CommitType.fix)
    ∧ List.Sublist
        ((groupEntriesByType
            [ChangelogEntry.mk CommitType.fix none (str ("resolve timeout issue")) (str ("h1")),
             ChangelogEntry.mk CommitType.feat none (str ("responsive navigation")) (str ("h2"))]).map
          Section.title)
        [str ("Added"), str ("Fixed")] :=
  ⟨by decide,
   (c6_fixed_section_order
      [ChangelogEntry.mk CommitType.fix none (str ("resolve timeout issue")) (str ("h1")),
       ChangelogEntry.mk CommitType.feat none (str ("responsive navigation")) (str ("h2"))]).2.2
     (by decide)⟩

/-- Claim C4 (confirmed): for every type of the closed enumeration and every
well-formed scope (non-empty, no `)`) and description (non-empty, no
newline), parsing `type(scope): description` recovers exactly that type,
scope and description. -/
theorem c4_roundtrip (t : CommitType) (scope desc : Str)
    (hs : ¬ scope = []) (hsp : ∀ c ∈ scope, ¬ c = ')')
    (hd : ¬ desc = []) (hdn : ¬ desc.elem '\n') :
    parseConventionalCommit (typeStr t ++ ('(' :: scope ++ ')' :: ':' :: ' ' :: desc))
      = ⟨t, some scope, desc⟩ := by
  have hdrop : (typeStr t ++ ('(' :: scope ++ ')' :: ':' :: ' ' :: desc)).drop
      (typeStr t).length = '(' :: scope ++ ')' :: ':' :: ' ' :: desc := by
    rw [List.drop_left]
  have hcore : parseConvCore (typeStr t ++ ('(' :: scope ++ ')' :: ':' :: ' ' :: desc))
      = some ⟨t, some scope, desc⟩ := by
    have hdn2 : '\n' ∉ desc := by simpa using hdn
    unfold parseConvCore
    simp only [findTypeAlt_append, hdrop]
    simp only [List.cons_append]
    rw [matchScoped_eq scope hs hsp (':' :: ' ' :: desc)]
    simp [descOk, hd, hdn2]
  unfold parseConventionalCommit
  rw [hcore]

/-- Witness for C4: the round trip at a concrete conventional message. -/
theorem c4_roundtrip_witness :
    parseConventionalCommit (str ("feat(api): add new endpoint"))
      = ⟨CommitType.feat, some (str ("api")), str ("add new endpoint")⟩ := by
  have h := c4_roundtrip CommitType.feat (str ("api")) (str ("add new endpoint"))
    (by decide) (by decide) (by decide) (by decide)
  have heq : str ("feat(api): add new endpoint")
      = typeStr CommitType.feat
        ++ ('(' :: str ("api") ++ ')' :: ':' :: ' ' :: str ("add new endpoint")) := by decide
  rw [heq]
  exact h

/-- Claim C9 (amended): for every non-empty message the parser yields a type
of the closed eleven-value enumeration and a non-empty description — but
the description can be whitespace-only, so the claimed "non-empty after
trimming" fails (see the counterexample). -/
theorem c9_type_enum_and_description (message : Str) (hne : ¬ message = []) :
    (parseConventionalCommit message).type ∈ commitTypeAlternation
    ∧ ¬ (parseConventionalCommit message).description = [] := by
  constructor
  · cases htype : (parseConventionalCommit message).type <;> simp [commitTypeAlternation]
  · unfold parseConventionalCommit
    cases hc : parseConvCore message with
    | none => simpa using hne
    | some p => simpa using parseConvCore_desc message p hc

/-- Witness for C9: a message on the inference fallback path keeps its
non-empty text as the description. -/
theorem c9_nonempty_witness :
    (parseConventionalCommit (str ("update readme"))).type ∈ commitTypeAlternation
    ∧ ¬ (parseConventionalCommit (str ("update readme"))).description = [] :=
  c9_type_enum_and_description (str ("update readme")) (by decide)

/-- Claim C8 (amended): a commit-range query failure is fatal — the error is
wrapped (`Failed to get commits: …`, then `Failed to generate changelog: …`)
and re-raised, and nothing is written; a HEAD-lookup failure, however, does
not fail the run: `getLatestCommitHash` swallows it and any written document
carries the fabricated value `<!-- CI-LAST-PROCESSED: unknown -->` (see the
counterexample). -/
theorem c8_commit_failure_fatal :
    (∀ (e : Str) (headE : Except Str Str) (existingFile : Option Str)
        (timestamp : Str) (previewMode : Bool),
      generateChangelog (Except.error e) headE existingFile timestamp previewMode
        = Except.error
            (str ("Failed to generate changelog: Error: Failed to get commits: ") ++ e))
    ∧ (∀ (cs : List GitCommit) (e : Str) (existingFile : Option Str) (timestamp : Str)
        (r : GenResult) (w : Str),
      generateChangelog (Except.ok cs) (Except.error e) existingFile timestamp false
          = Except.ok r →
      r.written = some w →
      containsSub (str ("<!-- CI-LAST-PROCESSED: unknown -->")) w = true) := by
  constructor
  · intro e headE existingFile timestamp previewMode
    rfl
  · intro cs e existingFile timestamp r w hr hw
    have hpat : str ("<!-- CI-LAST-PROCESSED: unknown -->")
        = str ("<!-- CI-LAST-PROCESSED: ") ++ str ("unknown") ++ str (" -->") := by decide
    cases existingFile with
    | some c =>
      simp only [generateChangelog, getLatestCommitHash] at hr
      split at hr
      · rw [← Except.ok.inj hr] at hw
        exact Option.noConfusion hw
      · split at hr
        · rw [← Except.ok.inj hr] at hw
          exact Option.noConfusion hw
        · rw [← Except.ok.inj hr] at hw
          rw [← Option.some.inj hw, hpat]
          exact addMetadata_contains_ci _ _ _
    | none =>
      simp only [generateChangelog, getLatestCommitHash] at hr
      split at hr
      · rw [← Except.ok.inj hr] at hw
        exact Option.noConfusion hw
      · split at hr
        · rw [← Except.ok.inj hr] at hw
          exact Option.noConfusion hw
        · rw [← Except.ok.inj hr] at hw
          rw [← Option.some.inj hw, hpat]
          exact addMetadata_contains_ci _ _ _

/-- Witness for C8: a concrete failing commit query yields the wrapped
error, and a concrete run with a failing HEAD lookup writes a document
containing the fabricated `unknown` watermark. -/
theorem c8_failure_witness :
    generateChangelog (Except.error (str ("boom"))) (Except.ok (str ("abc"))) none
        (str ("TS")) false
      = Except.error (str ("Failed to generate changelog: Error: Failed to get commits: boom"))
    ∧ containsSub (str ("<!-- CI-LAST-PROCESSED: unknown -->"))
        (addMetadata (mergeWithExistingChangelog createInitialChangelog
            (generateSectionContent (groupEntriesByType (parseCommits [worthyCommit]))))
          (str ("unknown")) (str ("TS"))) = true :=
  ⟨by
    have h := c8_commit_failure_fatal.1 (str ("boom")) (Except.ok (str ("abc"))) none
      (str ("TS")) false
    rw [h]
    rfl,
   c8_commit_failure_fatal.2 [worthyCommit] (str ("x")) (some createInitialChangelog)
     (str ("TS"))
     ⟨some (addMetadata (mergeWithExistingChangelog createInitialChangelog
         (generateSectionContent (groupEntriesByType (parseCommits [worthyCommit]))))
        (str ("unknown")) (str ("TS"))),
      some (addMetadata (mergeWithExistingChangelog createInitialChangelog
         (generateSectionContent (groupEntriesByType (parseCommits [worthyCommit]))))
        (str ("unknown")) (str ("TS")))⟩
     (addMetadata (mergeWithExistingChangelog createInitialChangelog
         (generateSectionContent (groupEntriesByType (parseCommits [worthyCommit]))))
        (str ("unknown")) (str ("TS")))
     rfl rfl⟩

/-- Claim C10 (confirmed): when the stored watermark value is not a valid
lowercase-hex commit hash (for example the literal `unknown` that
`getLatestCommitHash` substitutes on failure), the extraction regex
`<!-- CI-LAST-PROCESSED: ([a-f0-9]+) -->` finds no match, so
`extractLastProcessed` returns `none` and the next run selects the
recent-commits fallback range instead of a `<hash>..HEAD` range.
Hypotheses: the marker text occurs at exactly one position in the
document, the stored value contains at least one non-hex character, and
the stored value does not itself contain the closing delimiter. -/
theorem c10_invalid_watermark_fallback (A v B : Str)
    (hone : ∀ p, p ≤ (A ++ (extractMarker ++ (v ++ (str (" -->") ++ B)))).length →
        pre extractMarker ((A ++ (extractMarker ++ (v ++ (str (" -->") ++ B)))).drop p) = true →
        p = A.length)
    (hbad : ∃ c ∈ v, isHexC c = false)
    (harr : containsSub (str (" -->")) v = false) :
    extractLastProcessed (A ++ (extractMarker ++ (v ++ (str (" -->") ++ B)))) = none ∧
    commitRange (some (A ++ (extractMarker ++ (v ++ (str (" -->") ++ B)))))
      = CommitRange.recentFallback := by
  have hnone :
      extractLastProcessed (A ++ (extractMarker ++ (v ++ (str (" -->") ++ B)))) = none := by
    apply extractLastProcessed_eq_none
    intro p hp
    cases hpre :
        pre extractMarker ((A ++ (extractMarker ++ (v ++ (str (" -->") ++ B)))).drop p) with
    | false => exact matchLastProcessedAt_of_not_pre _ hpre
    | true =>
      rw [hone p hp hpre, List.drop_left]
      exact matchLastProcessedAt_marker v B hbad harr
  refine ⟨hnone, ?_⟩
  simp only [commitRange]
  rw [hnone]

/-- Concrete run of C10: a document whose watermark carries the value
`unknown` yields no extracted hash and the fallback commit range. -/
theorem c10_fallback_witness :
    (∀ p, p ≤ (str ("# C\n") ++ (extractMarker ++ (str ("unknown") ++ (str (" -->") ++ str ("\nx"))))).length →
        pre extractMarker ((str ("# C\n") ++ (extractMarker ++ (str ("unknown") ++ (str (" -->") ++ str ("\nx"))))).drop p) = true →
        p = (str ("# C\n")).length) ∧
    extractLastProcessed (str ("# C\n") ++ (extractMarker ++ (str ("unknown") ++ (str (" -->") ++ str ("\nx"))))) = none ∧
    commitRange (some (str ("# C\n") ++ (extractMarker ++ (str ("unknown") ++ (str (" -->") ++ str ("\nx"))))))
      = CommitRange.recentFallback := by
  refine ⟨by decide, ?_, ?_⟩
  · exact (c10_invalid_watermark_fallback (str ("# C\n")) (str ("unknown")) (str ("\nx"))
      (by decide) (by decide) (by decide)).1
  · exact (c10_invalid_watermark_fallback (str ("# C\n")) (str ("unknown")) (str ("\nx"))
      (by decide) (by decide) (by decide)).2

/-- Claim C2 (corrected): whenever stripping stale metadata leaves the
document free of both watermark markers (true for ordinarily formed
documents, but not for adversarial nestings — see the counterexample), and
the commit hash and timestamp are free of the character `<`, the stamped
document holds exactly one `<!-- Generated:` marker and exactly one
`<!-- CI-LAST-PROCESSED:` marker, and the fresh pair is inserted at a cut
point of the stripped document that lies at the end of the Unreleased
block: past the Unreleased heading with no `\n## ` heading strictly in
between, and with the remainder at the cut either empty or starting with a
`\n## ` heading. -/
theorem c2_watermark_unique (content latestCommit timestamp : Str)
    (hgen : containsSub genMarker (removeExistingMetadata content) = false)
    (hci : containsSub ciMarker (removeExistingMetadata content) = false)
    (hlt : ∀ c ∈ latestCommit, ¬ c = '<')
    (htt : ∀ c ∈ timestamp, ¬ c = '<') :
    countSubstr (addMetadata content latestCommit timestamp) genMarker = 1 ∧
    countSubstr (addMetadata content latestCommit timestamp) ciMarker = 1 ∧
    ∃ k, addMetadata content latestCommit timestamp
        = ((removeExistingMetadata content).take k
            ++ ('\n' :: metadataBlock latestCommit timestamp))
          ++ ('\n' :: (removeExistingMetadata content).drop k)
      ∧ ((removeExistingMetadata content).drop k = []
          ∨ pre (str ("\n## ")) ((removeExistingMetadata content).drop k) = true)
      ∧ ∀ i, findSub unreleasedHeading (removeExistingMetadata content) = some i →
          i + unreleasedHeading.length ≤ k
          ∧ ∀ q, i + unreleasedHeading.length ≤ q → q < k →
              pre (str ("\n## ")) ((removeExistingMetadata content).drop q) = false := by
  cases hf : findSub unreleasedHeading (removeExistingMetadata content) with
  | none =>
    have heq : addMetadata content latestCommit timestamp
        = (((removeExistingMetadata content).take (removeExistingMetadata content).length
            ++ ('\n' :: metadataBlock latestCommit timestamp))
          ++ ('\n' :: (removeExistingMetadata content).drop
              (removeExistingMetadata content).length)) := by
      unfold addMetadata
      rw [hf, List.take_length, List.drop_length]
    refine ⟨?_, ?_, (removeExistingMetadata content).length, heq, ?_, ?_⟩
    · rw [heq, show genMarker = '<' :: str ("!-- Generated:") from rfl]
      exact count_inserted _ _ _ _ (by decide) hgen
        (countPreExt_mb_gen latestCommit timestamp _ hlt htt)
    · rw [heq, show ciMarker = '<' :: str ("!-- CI-LAST-PROCESSED:") from rfl]
      exact count_inserted _ _ _ _ (by decide) hci
        (countPreExt_mb_ci latestCommit timestamp _ hlt htt)
    · exact Or.inl (List.drop_length _)
    · intro i hi
      exact Option.noConfusion hi
  | some i =>
    have heq : addMetadata content latestCommit timestamp
        = (((removeExistingMetadata content).take
              (i + unreleasedHeading.length
                + stopLenMeta ((removeExistingMetadata content).drop
                    (i + unreleasedHeading.length)))
            ++ ('\n' :: metadataBlock latestCommit timestamp))
          ++ ('\n' :: (removeExistingMetadata content).drop
              (i + unreleasedHeading.length
                + stopLenMeta ((removeExistingMetadata content).drop
                    (i + unreleasedHeading.length))))) := by
      unfold addMetadata
      rw [hf]
    refine ⟨?_, ?_,
      i + unreleasedHeading.length
        + stopLenMeta ((removeExistingMetadata content).drop
            (i + unreleasedHeading.length)), heq, ?_, ?_⟩
    · rw [heq, show genMarker = '<' :: str ("!-- Generated:") from rfl]
      exact count_inserted _ _ _ _ (by decide) hgen
        (countPreExt_mb_gen latestCommit timestamp _ hlt htt)
    · rw [heq, show ciMarker = '<' :: str ("!-- CI-LAST-PROCESSED:") from rfl]
      exact count_inserted _ _ _ _ (by decide) hci
        (countPreExt_mb_ci latestCommit timestamp _ hlt htt)
    · have h9 : (removeExistingMetadata content).drop
          (i + unreleasedHeading.length
            + stopLenMeta ((removeExistingMetadata content).drop
                (i + unreleasedHeading.length)))
          = ((removeExistingMetadata content).drop (i + unreleasedHeading.length)).drop
              (stopLenMeta ((removeExistingMetadata content).drop
                (i + unreleasedHeading.length))) := by
        rw [List.drop_drop, Nat.add_comm]
      rw [h9]
      exact stopLenMeta_at _
    · intro j hj
      obtain rfl := Option.some.inj hj
      refine ⟨Nat.le_add_right _ _, ?_⟩
      intro q hq1 hq2
      have hq4 : (removeExistingMetadata content).drop q
          = ((removeExistingMetadata content).drop (i + unreleasedHeading.length)).drop
              (q - (i + unreleasedHeading.length)) := by
        rw [List.drop_drop]
        congr 1
        omega
      rw [hq4]
      exact stopLenMeta_lt _ _ (by omega)

/-- Concrete run of the corrected C2 statement: stamping an ordinary
document with one complete stale watermark pair leaves exactly one marker
of each kind. -/
theorem c2_watermark_witness :
    (containsSub genMarker (removeExistingMetadata c2wDoc) = false
      ∧ containsSub ciMarker (removeExistingMetadata c2wDoc) = false
      ∧ (∀ c ∈ str ("abc123"), ¬ c = '<')
      ∧ (∀ c ∈ str ("2024-06-01T00:00:00.000Z"), ¬ c = '<'))
    ∧ countSubstr (addMetadata c2wDoc (str ("abc123"))
        (str ("2024-06-01T00:00:00.000Z"))) genMarker = 1
    ∧ countSubstr (addMetadata c2wDoc (str ("abc123"))
        (str ("2024-06-01T00:00:00.000Z"))) ciMarker = 1 := by
  refine ⟨⟨by decide, by decide, by decide, by decide⟩, ?_, ?_⟩
  · exact (c2_watermark_unique c2wDoc (str ("abc123")) (str ("2024-06-01T00:00:00.000Z"))
      (by decide) (by decide) (by decide) (by decide)).1
  · exact (c2_watermark_unique c2wDoc (str ("abc123")) (str ("2024-06-01T00:00:00.000Z"))
      (by decide) (by decide) (by decide) (by decide)).2.1
